import Mathlib

/-!
Verification of the TOON codec in `src/app/app.ts` (functions `jsonToToon`,
`formatToonValue`, `toonToJson`, `parseToonArray`, `parseToonObject`,
`parseToonValue`).  Strings are modelled as `List Char`; JavaScript numbers
are modelled as integers extended with the two infinities (fractional
float64 values and their shortest-representation printing are outside the
scope of this embedding, as is float64 rounding).  All definitions are
executable and translated directly from the source.
-/

namespace Toon

/-- Strings are modelled as lists of characters. -/
abbrev Str := List Char

/-- Whitespace characters recognised by JavaScript `trim()` and by the
regex class `\s`, restricted to the ASCII range used by this codec. -/
def isWS (c : Char) : Bool :=
  c = ' ' || c = '\t' || c = '\n' || c = '\r' || c = '\x0b' || c = '\x0c'

/-- Model of the left half of JavaScript `String.prototype.trim`. -/
def trimLeft (s : Str) : Str := s.dropWhile isWS

/-- Model of the right half of JavaScript `String.prototype.trim`,
written recursively so that proofs can track the head of the result. -/
def trimRight : Str → Str
  | [] => []
  | c :: cs =>
    match trimRight cs with
    | [] => if isWS c then [] else [c]
    | r => c :: r

/-- Model of JavaScript `String.prototype.trim`. -/
def trim (s : Str) : Str := trimRight (trimLeft s)

/-- Model of JavaScript `split` on a one-character separator:
`"".split(sep)` is `[""]`, and separators at the ends produce empty pieces. -/
def splitOnChar (sep : Char) : Str → List Str
  | [] => [[]]
  | c :: cs =>
    if c = sep then [] :: splitOnChar sep cs
    else
      match splitOnChar sep cs with
      | [] => [[c]]
      | h :: t => (c :: h) :: t

/-- Model of JavaScript `Array.prototype.join` on a one-character separator. -/
def joinSep (sep : Char) : List Str → Str
  | [] => []
  | [p] => p
  | p :: ps => p ++ sep :: joinSep sep ps

/-- Boolean test that the first argument starts the second. -/
def strStartsWith : Str → Str → Bool
  | [], _ => true
  | _ :: _, [] => false
  | p :: ps, c :: cs => p = c && strStartsWith ps cs

/-- Boolean test that the first argument ends the second. -/
def strEndsWith (suf s : Str) : Bool := strStartsWith suf.reverse s.reverse

/-- Model of JavaScript `indexOf` for a single character. -/
def firstIdx (c : Char) : Str → Option Nat
  | [] => none
  | x :: xs => if x = c then some 0 else (firstIdx c xs).map (· + 1)

/-- Character for a decimal digit value below ten. -/
def digitChar (d : Nat) : Char := Char.ofNat (48 + d)

/-- Decimal digit string of a natural number, as printed by JavaScript
`String(n)` for exactly representable integers. -/
def natToDigits (n : Nat) : Str :=
  if n < 10 then [digitChar n]
  else natToDigits (n / 10) ++ [digitChar (n % 10)]
  termination_by n
  decreasing_by exact Nat.div_lt_self (by omega) (by omega)

/-- Numeric value of a decimal digit string, as computed by
`parseInt(s, 10)` on a string of digits. -/
def digitsVal (ds : Str) : Nat :=
  ds.foldl (fun a c => a * 10 + (c.toNat - 48)) 0

/-- Decimal representation of an integer, as printed by JavaScript
`String(n)` for exactly representable integers. -/
def intRepr (z : Int) : Str :=
  if z < 0 then '-' :: natToDigits z.natAbs else natToDigits z.toNat

/-- Digit string of a natural number, padded on the left with zeros to at
least `w` characters; used by the fixed-point printing of finite
decimals. -/
def natToDigitsPad (n w : Nat) : Str :=
  List.replicate (w - (natToDigits n).length) '0' ++ natToDigits n

/-- Model of JavaScript `String(x)` for a finite non-integral decimal
value `m / 10^e` (with `e > 0`) in the plain-notation printing range: the
digits of `m`, padded so that an integer part exists, with the decimal
point inserted `e` places from the right, and a leading minus sign for
negative values.  The exponent-notation switch of `String` for very large
or very small magnitudes is outside the scope of this embedding. -/
def decRepr (m : Int) (e : Nat) : Str :=
  (if m < 0 then ['-'] else []) ++
    ((natToDigitsPad m.natAbs (e + 1)).take ((natToDigitsPad m.natAbs (e + 1)).length - e) ++
      '.' :: (natToDigitsPad m.natAbs (e + 1)).drop ((natToDigitsPad m.natAbs (e + 1)).length - e))

/-- JavaScript numbers, modelled as exact values: integers, the two
infinities, and finite decimals `dec m e` denoting `m / 10^e`.  The
string-to-number parser produces `dec` only in reduced form (`e > 0` and
`m` not divisible by ten), on which the fixed-point printing below agrees
with the shortest round-trip printing of `String`.  IEEE 754 rounding of
literals to the nearest double, overflow of huge literals to the
infinities, and the exponent-notation printing range are outside the
scope of this embedding; `NaN` is represented by `Option.none` at the
parsing boundary. -/
inductive JSNum where
  | int (z : Int)
  | posInf
  | negInf
  | dec (m : Int) (e : Nat)
deriving DecidableEq, Repr

/-- Model of JavaScript `String(n)` on the modelled number domain. -/
def jsNumToString : JSNum → Str
  | .int z => intRepr z
  | .posInf => "Infinity".toList
  | .negInf => "-Infinity".toList
  | .dec m e => decRepr m e

/-- Model of JavaScript `String(b)` for booleans. -/
def jsBoolStr (b : Bool) : Str :=
  if b then "true".toList else "false".toList

/-- Boolean test for a hexadecimal digit. -/
def isHexDigit (c : Char) : Bool :=
  c.isDigit || ('a' ≤ c && c ≤ 'f') || ('A' ≤ c && c ≤ 'F')

/-- Value of a hexadecimal digit. -/
def hexDigitVal (c : Char) : Nat :=
  if c.isDigit then c.toNat - 48
  else if 'a' ≤ c && c ≤ 'f' then c.toNat - 87
  else c.toNat - 55

/-- Exponent digits after the `e`/`E` marker of a decimal literal: an
optional sign followed by a non-empty digit run; anything else is not a
numeric literal. -/
def expDigits (r : Str) : Option Int :=
  if strStartsWith ['+'] r then
    if r.drop 1 ≠ [] ∧ (r.drop 1).all Char.isDigit then
      some (digitsVal (r.drop 1))
    else none
  else if strStartsWith ['-'] r then
    if r.drop 1 ≠ [] ∧ (r.drop 1).all Char.isDigit then
      some (-(digitsVal (r.drop 1) : Int))
    else none
  else if r ≠ [] ∧ r.all Char.isDigit then some (digitsVal r) else none

/-- Optional exponent part of a decimal literal: empty (exponent zero),
or `e`/`E` followed by optionally signed digits; any other trailing text
rejects the literal. -/
def expPart (r : Str) : Option Int :=
  if r = [] then some 0
  else if strStartsWith ['e'] r || strStartsWith ['E'] r then expDigits (r.drop 1)
  else none

/-- Fractional tail of a decimal literal after the decimal point: `d1`
holds the integer-part digits, `r2` the text after the point.  At least
one side of the point must carry digits. -/
def decLitFrac (d1 r2 : Str) : Option (Nat × Nat × Int) :=
  if d1 = [] ∧ r2.takeWhile Char.isDigit = [] then none
  else
    (expPart (r2.dropWhile Char.isDigit)).map
      (fun ex => (digitsVal (d1 ++ r2.takeWhile Char.isDigit),
        (r2.takeWhile Char.isDigit).length, ex))

/-- Unsigned decimal literal of the JavaScript string numeric grammar,
`Digits [ . Digits ] [ Exponent ]` or `. Digits [ Exponent ]`: returns
the mantissa digits value, the count of fractional digits, and the
exponent. -/
def decLit (t : Str) : Option (Nat × Nat × Int) :=
  if strStartsWith ['.'] (t.dropWhile Char.isDigit) then
    decLitFrac (t.takeWhile Char.isDigit) ((t.dropWhile Char.isDigit).drop 1)
  else if t.takeWhile Char.isDigit = [] then none
  else
    (expPart (t.dropWhile Char.isDigit)).map
      (fun ex => (digitsVal (t.takeWhile Char.isDigit), 0, ex))

/-- Strip factors of ten shared between a decimal mantissa and its
fractional length, as far as the fractional length allows. -/
def reduceDec : Nat → Nat → Nat × Nat
  | m, 0 => (m, 0)
  | m, e + 1 => if m % 10 = 0 then reduceDec (m / 10) e else (m, e + 1)

/-- Exact value `± m × 10^(ex − frac)` of a parsed decimal literal in the
modelled number domain: integral values collapse to `int`, fractional
values to a reduced `dec` pair. -/
def mkDecNum (neg : Bool) (m frac : Nat) (ex : Int) : JSNum :=
  if ex - (frac : Int) < 0 then
    if (reduceDec m ((frac : Int) - ex).toNat).2 = 0 then
      .int (if neg then -((reduceDec m ((frac : Int) - ex).toNat).1 : Int)
            else ((reduceDec m ((frac : Int) - ex).toNat).1 : Int))
    else
      .dec (if neg then -((reduceDec m ((frac : Int) - ex).toNat).1 : Int)
            else ((reduceDec m ((frac : Int) - ex).toNat).1 : Int))
        (reduceDec m ((frac : Int) - ex).toNat).2
  else
    .int (if neg then -((m * 10 ^ (ex - (frac : Int)).toNat : Nat) : Int)
          else ((m * 10 ^ (ex - (frac : Int)).toNat : Nat) : Int))

/-- Model of JavaScript `Number(s)` (string-to-number coercion) on the
modelled number domain: surrounding whitespace is dropped, the empty
string coerces to `0`, optionally signed `Infinity` is recognised, as are
unsigned `0x`/`0o`/`0b` integer literals, and otherwise an optionally
signed decimal literal of the grammar `Digits [. Digits] [e/E signed
Digits]` or `. Digits [e/E signed Digits]`, taken at its exact
mathematical value (IEEE 754 rounding and overflow to the infinities are
outside the scope of this embedding).  `none` models `NaN`. -/
def jsStringToNumber (s : Str) : Option JSNum :=
  let t := trim s
  if t = [] then some (.int 0)
  else if t = "Infinity".toList || t = "+Infinity".toList then some .posInf
  else if t = "-Infinity".toList then some .negInf
  else if strStartsWith ['0', 'x'] t || strStartsWith ['0', 'X'] t then
    let ds := t.drop 2
    if ds ≠ [] ∧ ds.all isHexDigit then
      some (.int (ds.foldl (fun a c => a * 16 + (hexDigitVal c : Int)) 0))
    else none
  else if strStartsWith ['0', 'o'] t || strStartsWith ['0', 'O'] t then
    let ds := t.drop 2
    if ds ≠ [] ∧ ds.all (fun c => '0' ≤ c && c ≤ '7') then
      some (.int (ds.foldl (fun a c => a * 8 + ((c.toNat - 48 : Nat) : Int)) 0))
    else none
  else if strStartsWith ['0', 'b'] t || strStartsWith ['0', 'B'] t then
    let ds := t.drop 2
    if ds ≠ [] ∧ ds.all (fun c => c = '0' || c = '1') then
      some (.int (ds.foldl (fun a c => a * 2 + ((c.toNat - 48 : Nat) : Int)) 0))
    else none
  else if strStartsWith ['+'] t then
    (decLit (t.drop 1)).map (fun r => mkDecNum false r.1 r.2.1 r.2.2)
  else if strStartsWith ['-'] t then
    (decLit (t.drop 1)).map (fun r => mkDecNum true r.1 r.2.1 r.2.2)
  else
    (decLit t).map (fun r => mkDecNum false r.1 r.2.1 r.2.2)

/-- The JSON-like value tree processed by the codec (spec section 3). -/
inductive Value where
  | null
  | bool (b : Bool)
  | num (n : JSNum)
  | str (s : Str)
  | arr (elems : List Value)
  | obj (entries : List (Str × Value))

/-- Object entry lists. -/
abbrev Obj := List (Str × Value)

/-- Model of `parseToonValue` (app.ts lines 1070-1088): keyword scalars,
the empty string, then an `isNaN`-guarded numeric coercion, falling back
to the literal text. -/
def parseToonValue (v : Str) : Value :=
  if v = "null".toList then .null
  else if v = "true".toList then .bool true
  else if v = "false".toList then .bool false
  else if v = [] then .str []
  else
    match jsStringToNumber v with
    | some n => if trim v ≠ [] then .num n else .str v
    | none => .str v

mutual

/-- Model of JavaScript `String(v)` coercion on Value trees: arrays join
their elements with commas (null elements become the empty string, as in
`Array.prototype.join`), plain objects print as `[object Object]`. -/
def jsToString : Value → Str
  | .null => "null".toList
  | .bool b => jsBoolStr b
  | .num n => jsNumToString n
  | .str s => s
  | .arr es => joinSep ',' (jsElemStrings es)
  | .obj _ => "[object Object]".toList

/-- Element strings used by the array case of `jsToString`. -/
def jsElemStrings : List Value → List Str
  | [] => []
  | v :: vs =>
    (match v with
     | .null => []
     | w => jsToString w) :: jsElemStrings vs

end

/-- Model of `formatToonValue` (app.ts lines 943-954): null, strings,
numbers and booleans print their scalar form; anything else falls back to
the `String(value)` coercion. -/
def formatToonValue (v : Value) : Str :=
  match v with
  | .null => "null".toList
  | .str s => s
  | .num n => jsNumToString n
  | .bool b => jsBoolStr b
  | w => jsToString w

/-- Model of the check `typeof item === 'object' && item !== null &&
!Array.isArray(item) && Object.keys(item).length === keys.length &&
keys.every(key => key in item)` used by both tabular-eligibility tests in
`jsonToToon` (app.ts lines 864-871 and 900-907). -/
def sameStruct (keys : List Str) (v : Value) : Bool :=
  match v with
  | .obj e => e.length = keys.length && keys.all (fun k => e.any (fun p => p.1 = k))
  | _ => false

/-- Model of the JavaScript property access `item[key]` on a Value.  A
missing property is `undefined`; it is only ever consumed by
`formatToonValue`, whose `String(undefined)` coercion yields the text
`undefined`, so the missing case returns that text as a string.  Under the
tabular-eligibility guard every accessed key is present, making that case
unreachable in the encoder. -/
def jsGet (v : Value) (k : Str) : Value :=
  match v with
  | .obj e =>
    match e.find? (fun p => p.1 = k) with
    | some p => p.2
    | none => .str "undefined".toList
  | _ => .str "undefined".toList

/-- Tabular eligibility of a non-empty array (app.ts lines 861-873 and
896-909): the first element is a plain object whose key list is non-empty
and every element is an object with the same key set. -/
def tabularOkList (es : List Value) : Bool :=
  match es with
  | .obj e0 :: _ =>
    let ks := e0.map Prod.fst
    es.all (sameStruct ks) && decide (0 < ks.length)
  | _ => false

/-- Key list of the first element of a tabular-eligible array. -/
def keysOfFirst (es : List Value) : List Str :=
  match es with
  | .obj e0 :: _ => e0.map Prod.fst
  | _ => []

/-- Comma-joined data rows of a tabular block (app.ts lines 875-877 and
912-914). -/
def rowsOf (es : List Value) (keys : List Str) : List Str :=
  es.map (fun item => joinSep ',' (keys.map (fun k => formatToonValue (jsGet item k))))

/-- Raw shape of a tabular header line: digit group `ds` and brace group
`c`, assembled as `[ds]{c}:`. -/
def mkTabularHeader (ds c : Str) : Str :=
  '[' :: (ds ++ (']' :: ('{' :: (c ++ ['}', ':']))))

/-- Header of a tabular block without a leading key (app.ts line 874):
`[<count>]{<k1>,<k2>,...}:`. -/
def tabularHeader (count : Nat) (keys : List Str) : Str :=
  mkTabularHeader (natToDigits count) (joinSep ',' keys)

mutual

/-- Model of `jsonToToon` (app.ts lines 843-941), the encoder: scalars
print their scalar form; arrays are either `[]:`, a tabular block, or the
newline-joined encodings of their elements; objects are either `{}:` or
the newline-joined member lines. -/
def jsonToToon : Value → Str
  | .null => "null".toList
  | .str s => s
  | .num n => jsNumToString n
  | .bool b => jsBoolStr b
  | .arr es =>
    match es with
    | [] => "[]:".toList
    | _ :: _ =>
      if tabularOkList es then
        let keys := keysOfFirst es
        joinSep '\n' (tabularHeader es.length keys :: rowsOf es keys)
      else joinSep '\n' (jsonToToonLines es)
  | .obj entries =>
    match entries with
    | [] => "{}:".toList
    | _ :: _ => joinSep '\n' (memberLines entries)

/-- Encodings of the elements of a non-tabular array (app.ts line 882). -/
def jsonToToonLines : List Value → List Str
  | [] => []
  | v :: vs => jsonToToon v :: jsonToToonLines vs

/-- Lines produced for object members by the `keys.forEach` loop of
`jsonToToon` (app.ts lines 893-935): a tabular-eligible non-empty array
member produces a keyed header plus flush rows; a plain object member is
encoded recursively and emitted inline when the encoding is a single line
without brackets, otherwise as a bare `key:` line followed by the
two-space-indented encoding; every other member (scalars, and arrays that
are empty or not tabular-eligible) is an inline `key: value` line. -/
def memberLines : Obj → List Str
  | [] => []
  | (k, v) :: rest =>
    (match v with
     | .arr (e0 :: es) =>
       if tabularOkList (e0 :: es) then
         let aKeys := keysOfFirst (e0 :: es)
         (k ++ tabularHeader (e0 :: es).length aKeys) :: rowsOf (e0 :: es) aKeys
       else [k ++ ':' :: ' ' :: formatToonValue (.arr (e0 :: es))]
     | .obj oe =>
       let nested := jsonToToon (.obj oe)
       if nested.contains '\n' || nested.contains '[' || nested.contains '{' then
         (k ++ [':']) :: (splitOnChar '\n' nested).map (fun l => ' ' :: ' ' :: l)
       else [k ++ ':' :: ' ' :: nested]
     | w => [k ++ ':' :: ' ' :: formatToonValue w]) ++ memberLines rest

end

/-- Check of the `]{...}:` remainder shared by the two header regexes:
after the digit group there must be `]{`, and the line must end in `}:`. -/
def headerTailCheck : Str → Bool
  | b :: d :: r3 => b = ']' && d = '{' && strEndsWith ['}', ':'] r3
  | _ => false

/-- Model of the regex test `^\[\d+\]\{.*\}:$` used for dispatch (app.ts
lines 972 and 1023): an opening bracket, one or more digits, `]{`, any
(possibly empty) middle, then a final `}:`.  The regex is deterministic:
the digit run is maximal and the string must end in `}:`. -/
def headerDispatch (s : Str) : Bool :=
  strStartsWith ['['] s &&
    (s.tail.takeWhile Char.isDigit ≠ []) &&
    headerTailCheck (s.tail.dropWhile Char.isDigit)

/-- Remainder check of the capturing header regex: like `headerTailCheck`
but the brace group must be non-empty, and the `parseInt` of the digit
group together with the brace group (the greedy `(.+)` capture) is
returned. -/
def headerFullTail (ds : Str) : Str → Option (Nat × Str)
  | b :: d :: r3 =>
    if b = ']' ∧ d = '{' ∧ strEndsWith ['}', ':'] r3 = true ∧ 3 ≤ r3.length then
      some (digitsVal ds, r3.dropLast.dropLast)
    else none
  | _ => none

/-- Model of the capturing regex `^\[(\d+)\]\{(.+)\}:$` (app.ts line 985):
like `headerDispatch` but the middle must be non-empty; returns the
`parseInt` of the digit group and the middle group (the greedy `(.+)`
capture, i.e. everything between `]{` and the final `}:`). -/
def headerFullParse (s : Str) : Option (Nat × Str) :=
  if strStartsWith ['['] s then
    if s.tail.takeWhile Char.isDigit = [] then none
    else headerFullTail (s.tail.takeWhile Char.isDigit) (s.tail.dropWhile Char.isDigit)
  else none

/-- Model of the regex test `^[^:]+:\s` (app.ts line 1026): the first
colon of the line exists at a position of at least one and is immediately
followed by a whitespace character. -/
def keyLineHeur (s : Str) : Bool :=
  match firstIdx ':' s with
  | some (j + 1) =>
    (match s.drop (j + 2) with
     | w :: _ => isWS w
     | [] => false)
  | _ => false

/-- Model of the row-object construction of `parseToonArray` (app.ts
lines 996-999): `keys.forEach((key, index) => item[key] =
parseToonValue(values[index] || ''))`.  JavaScript property assignment
updates an existing key in place and otherwise appends. -/
def objInsert (res : Obj) (k : Str) (v : Value) : Obj :=
  if res.any (fun p => p.1 = k) then
    res.map (fun p => if p.1 = k then (k, v) else p)
  else res ++ [(k, v)]

/-- Row object of a tabular block: each header key is zipped positionally
with the comma-split trimmed cells; a missing trailing cell defaults to
the empty string (`values[index] || ''`, where an existing empty cell also
yields the empty string). -/
def buildRowItem (keys : List Str) (values : List Str) : Obj :=
  keys.enum.foldl (fun item p => objInsert item p.2 (parseToonValue (values.getD p.1 []))) []

/-- Model of `parseToonArray` (app.ts lines 979-1004): re-match the full
header regex on the trimmed first line (throwing `Invalid array header
format` when it fails), then consume at most `count` following lines as
rows. -/
def parseToonArray (lines : List Str) : Except Str (List Value) :=
  match lines with
  | [] => .ok []
  | l0 :: rest =>
    match headerFullParse (trim l0) with
    | none => .error "Invalid array header format".toList
    | some (count, content) =>
      let keys := (splitOnChar ',' content).map trim
      .ok ((rest.take count).map (fun row =>
        .obj (buildRowItem keys ((splitOnChar ',' row).map trim))))

/-- Loop of `parseToonObject` (app.ts lines 1006-1068), written as fuel
recursion: each iteration of the source `while` loop consumes at least one
line, so fuel equal to the number of lines (supplied by
`parseToonObject`) is never exhausted; the fuel-zero fallback is
unreachable.  Branches, in source order: blank lines are skipped; a line
ending in `:` is a bare key whose payload is an array block when the next
trimmed line matches the dispatch regex, a nested block when the next
trimmed line starts with two spaces (unreachable, since a trimmed line
never starts with a space), else the single next line scalar-parsed, and
`null` when there is no next line; any other line is split at its first
colon when that colon is at a positive position, and skipped otherwise. -/
def parseToonObjectGo : Nat → Obj → List Str → Except Str Obj
  | 0, res, _ => .ok res
  | _ + 1, res, [] => .ok res
  | fuel + 1, res, l :: rest =>
    let line := trim l
    if line = [] then parseToonObjectGo fuel res rest
    else if strEndsWith [':'] line then
      let key := trim line.dropLast
      match rest with
      | [] => parseToonObjectGo fuel (objInsert res key .null) []
      | next :: rest2 =>
        let nl := trim next
        if headerDispatch nl then
          let taken := rest2.takeWhile
            (fun l2 => !strEndsWith [':'] (trim l2) && !keyLineHeur (trim l2))
          match parseToonArray (nl :: taken) with
          | .error e => .error e
          | .ok a => parseToonObjectGo fuel (objInsert res key (.arr a)) (rest2.drop taken.length)
        else if strStartsWith [' ', ' '] nl then
          let taken2 := (next :: rest2).takeWhile (fun l2 => strStartsWith [' ', ' '] l2)
          match parseToonObjectGo fuel [] (taken2.map (fun l2 => l2.drop 2)) with
          | .error e => .error e
          | .ok nestedObj =>
            parseToonObjectGo fuel (objInsert res key (.obj nestedObj))
              ((next :: rest2).drop taken2.length)
        else
          parseToonObjectGo fuel (objInsert res key (parseToonValue nl)) rest2
    else
      match firstIdx ':' line with
      | some (j + 1) =>
        let k := trim (line.take (j + 1))
        let v := trim (line.drop (j + 2))
        parseToonObjectGo fuel (objInsert res k (parseToonValue v)) rest
      | _ => parseToonObjectGo fuel res rest

/-- Model of `parseToonObject` (app.ts lines 1006-1068). -/
def parseToonObject (lines : List Str) : Except Str Obj :=
  parseToonObjectGo lines.length [] lines

/-- Line preprocessing of `toonToJson` (app.ts line 957): trim the whole
input, split it on newlines, and drop the lines that are blank after
trimming. -/
def toonLines (t : Str) : List Str :=
  (splitOnChar '\n' (trim t)).filter (fun l => trim l ≠ [])

/-- Model of `toonToJson` (app.ts lines 956-977), the decoder entry
point: empty line list means the empty object; the trimmed first line
dispatches on the literals `[]:` and `{}:` and on the tabular header
regex; everything else parses as an object. -/
def toonToJson (t : Str) : Except Str Value :=
  match toonLines t with
  | [] => .ok (.obj [])
  | l0 :: _ =>
    let firstLine := trim l0
    if firstLine = "[]:".toList then .ok (.arr [])
    else if firstLine = "{}:".toList then .ok (.obj [])
    else if headerDispatch firstLine then
      (parseToonArray (toonLines t)).map .arr
    else (parseToonObject (toonLines t)).map .obj

/-- A text token free of the three delimiter characters of the format. -/
def noDelim (s : Str) : Prop := ∀ c ∈ s, c ≠ ',' ∧ c ≠ ':' ∧ c ≠ '\n'

/-- A non-empty, whitespace-trimmed token free of delimiters: the shape of
keys and string cells that survive the wire format unchanged. -/
def cleanToken (s : Str) : Prop := s ≠ [] ∧ trim s = s ∧ noDelim s

/-- A string scalar that the decoder maps back to itself: a clean token
that is not a keyword and is not recognised as numeric. -/
def cleanCellStr (s : Str) : Prop :=
  cleanToken s ∧ s ≠ "null".toList ∧ s ≠ "true".toList ∧ s ≠ "false".toList ∧
    jsStringToNumber s = none

/-- Numbers of the model whose printed text re-parses to the same model
value: integers and the infinities.  Arbitrary `dec` representations are
re-normalised by the parser (for example `dec 10 1` prints as `1.0`,
which parses to `int 1`), so the round-trip claims quantify over this
subdomain. -/
def intOrInf (n : JSNum) : Prop :=
  (∃ z, n = .int z) ∨ n = .posInf ∨ n = .negInf

/-- Scalar values whose formatted cell text parses back to the same
value. -/
def cleanScalar (v : Value) : Prop :=
  v = .null ∨ (∃ b, v = .bool b) ∨ (∃ n, v = .num n ∧ intOrInf n) ∨
    (∃ s, v = .str s ∧ cleanCellStr s)

/-- A non-empty, whitespace-trimmed token without colon or newline; the
shape of keys and string members that keep object lines intact. -/
def looseToken (s : Str) : Prop :=
  s ≠ [] ∧ trim s = s ∧ ∀ c ∈ s, c ≠ ':' ∧ c ≠ '\n'

/-- Scalar values whose inline `key: value` line is parsed back as one
line with the same key. -/
def flatScalar (v : Value) : Prop :=
  v = .null ∨ (∃ b, v = .bool b) ∨ (∃ n, v = .num n) ∨
    (∃ s, v = .str s ∧ looseToken s)

/-- Top-level scalar values in the sense of claim C1: null, booleans,
numbers, and strings free of comma, colon and newline. -/
def scalarC1 (v : Value) : Prop :=
  v = .null ∨ (∃ b, v = .bool b) ∨ (∃ n, v = .num n) ∨
    (∃ s, v = .str s ∧ noDelim s)

end Toon
namespace Toon

/-! Basic lemmas about the string model. -/

theorem trimRight_cons_of_ne_nil {c : Char} {cs : Str} (h : trimRight cs ≠ []) :
    trimRight (c :: cs) = c :: trimRight cs := by
  conv_lhs => unfold trimRight
  rcases hcs : trimRight cs with _ | ⟨r, rs⟩
  · exact absurd hcs h
  · rfl

theorem trimRight_cons_of_eq_nil {c : Char} {cs : Str} (h : trimRight cs = []) :
    trimRight (c :: cs) = if isWS c then [] else [c] := by
  conv_lhs => unfold trimRight
  rw [h]

theorem trimRight_eq_nil_iff {l : Str} : trimRight l = [] ↔ ∀ c ∈ l, isWS c = true := by
  induction l with
  | nil => simp [trimRight]
  | cons c cs ih =>
    constructor
    · intro h
      rcases hcs : trimRight cs with _ | ⟨r, rs⟩
      · rw [trimRight_cons_of_eq_nil hcs] at h
        by_cases hc : isWS c
        · intro x hx
          rcases List.mem_cons.mp hx with rfl | hx2
          · exact hc
          · exact (ih.mp hcs) x hx2
        · simp [hc] at h
      · rw [trimRight_cons_of_ne_nil (by rw [hcs]; simp)] at h
        simp at h
    · intro hall
      have hcs0 : trimRight cs = [] := ih.mpr (fun x hx => hall x (List.mem_cons_of_mem _ hx))
      rw [trimRight_cons_of_eq_nil hcs0]
      simp [hall c (List.mem_cons_self _ _)]

theorem trimRight_cons_head {c : Char} {cs : Str} (h : trimRight (c :: cs) ≠ []) :
    ∃ r, trimRight (c :: cs) = c :: r := by
  unfold trimRight
  rcases hcs : trimRight cs with _ | ⟨r, rs⟩
  · by_cases hc : isWS c
    · exact absurd (by unfold trimRight; rw [hcs]; simp [hc]) h
    · exact ⟨[], by simp [hc]⟩
  · exact ⟨r :: rs, rfl⟩

theorem trimRight_getLast_not_ws {l : Str} {c : Char} (h : (trimRight l).getLast? = some c) :
    isWS c = false := by
  induction l with
  | nil => simp [trimRight] at h
  | cons x xs ih =>
    unfold trimRight at h
    rcases hxs : trimRight xs with _ | ⟨r, rs⟩
    · rw [hxs] at h
      by_cases hx : isWS x
      · simp [hx] at h
      · simp [hx] at h; simpa [← h] using by simpa using hx
    · rw [hxs] at h
      rw [List.getLast?_cons_cons] at h
      exact ih (hxs ▸ h)

theorem trimRight_eq_self {l : Str} {c : Char} (h : l.getLast? = some c)
    (hc : isWS c = false) : trimRight l = l := by
  induction l with
  | nil => simp at h
  | cons x xs ih =>
    rcases xs with _ | ⟨y, ys⟩
    · simp at h
      unfold trimRight
      simp [trimRight, h ▸ hc]
    · rw [List.getLast?_cons_cons] at h
      have := ih h
      unfold trimRight
      rw [this]

theorem trimRight_append {xs ys : Str} (h : trimRight ys ≠ []) :
    trimRight (xs ++ ys) = xs ++ trimRight ys := by
  induction xs with
  | nil => rfl
  | cons x xs ih =>
    have hne : trimRight (xs ++ ys) ≠ [] := by
      rw [ih]; intro hc
      exact h (List.append_eq_nil.mp hc).2
    rw [List.cons_append, trimRight_cons_of_ne_nil hne, ih, List.cons_append]

theorem mem_trimRight {l : Str} {c : Char} (h : c ∈ trimRight l) : c ∈ l := by
  induction l with
  | nil => simp [trimRight] at h
  | cons x xs ih =>
    unfold trimRight at h
    rcases hxs : trimRight xs with _ | ⟨r, rs⟩
    · rw [hxs] at h
      by_cases hx : isWS x <;> simp [hx] at h
      simp [h]
    · rw [hxs] at h
      rcases List.mem_cons.mp h with rfl | h2
      · exact List.mem_cons_self _ _
      · exact List.mem_cons_of_mem _ (ih (by rw [hxs]; exact h2))

theorem trimLeft_cons_not_ws {c : Char} {cs : Str} (hc : isWS c = false) :
    trimLeft (c :: cs) = c :: cs := by
  simp [trimLeft, List.dropWhile_cons, hc]

theorem trimLeft_head_not_ws {l : Str} {c : Char} {r : Str} (h : trimLeft l = c :: r) :
    isWS c = false := by
  induction l with
  | nil => simp [trimLeft] at h
  | cons x xs ih =>
    by_cases hx : isWS x
    · exact ih (by simpa [trimLeft, List.dropWhile_cons, hx] using h)
    · rw [trimLeft_cons_not_ws (by simpa using hx)] at h
      cases h; simpa using hx

theorem mem_trimLeft {l : Str} {c : Char} (h : c ∈ trimLeft l) : c ∈ l :=
  (List.dropWhile_sublist isWS).mem h

theorem mem_trim {l : Str} {c : Char} (h : c ∈ trim l) : c ∈ l :=
  mem_trimLeft (mem_trimRight h)

theorem trim_head_not_ws {l : Str} {c : Char} {r : Str} (h : trim l = c :: r) :
    isWS c = false := by
  unfold trim at h
  rcases htl : trimLeft l with _ | ⟨x, xs⟩
  · rw [htl] at h; simp [trimRight] at h
  · rw [htl] at h
    have hne : trimRight (x :: xs) ≠ [] := by rw [h]; simp
    obtain ⟨r2, hr2⟩ := trimRight_cons_head hne
    rw [hr2] at h
    cases h
    exact trimLeft_head_not_ws htl

theorem trim_eq_nil_iff {l : Str} : trim l = [] ↔ ∀ c ∈ l, isWS c = true := by
  unfold trim
  rw [trimRight_eq_nil_iff]
  constructor
  · intro h c hc
    have hsplit : l.takeWhile isWS ++ l.dropWhile isWS = l :=
      List.takeWhile_append_dropWhile isWS l
    rw [← hsplit] at hc
    rcases List.mem_append.mp hc with h1 | h2
    · exact List.mem_takeWhile_imp h1
    · exact h c h2
  · intro h c hc
    exact h c (mem_trimLeft hc)

theorem length_trimRight_le (l : Str) : (trimRight l).length ≤ l.length := by
  induction l with
  | nil => simp [trimRight]
  | cons x xs ih =>
    rcases hxs : trimRight xs with _ | ⟨r, rs⟩
    · rw [trimRight_cons_of_eq_nil hxs]
      by_cases hx : isWS x <;> simp [hx]
    · rw [trimRight_cons_of_ne_nil (by rw [hxs]; simp)]
      simpa using ih

theorem trimRight_eq_self_of_length {l : Str}
    (h : (trimRight l).length = l.length) : trimRight l = l := by
  induction l with
  | nil => rfl
  | cons x xs ih =>
    rcases hxs : trimRight xs with _ | ⟨r, rs⟩
    · rw [trimRight_cons_of_eq_nil hxs] at h ⊢
      by_cases hx : isWS x
      · simp [hx] at h
      · cases xs with
        | nil => simp [hx]
        | cons y ys => simp [hx] at h
    · rw [trimRight_cons_of_ne_nil (by rw [hxs]; simp)] at h ⊢
      simp at h
      rw [ih h]

theorem length_trimLeft_le (l : Str) : (trimLeft l).length ≤ l.length :=
  (List.dropWhile_sublist isWS).length_le

theorem trimLeft_eq_self_of_length {l : Str}
    (h : (trimLeft l).length = l.length) : trimLeft l = l := by
  induction l with
  | nil => rfl
  | cons x xs ih =>
    by_cases hx : isWS x
    · exfalso
      have h2 : trimLeft (x :: xs) = trimLeft xs := by
        simp [trimLeft, List.dropWhile_cons, hx]
      rw [h2] at h
      have := length_trimLeft_le xs
      simp at h
      omega
    · exact trimLeft_cons_not_ws (by simpa using hx)

theorem trim_eq_self_parts {l : Str} (h : trim l = l) :
    trimLeft l = l ∧ trimRight l = l := by
  have h1 : (trimRight (trimLeft l)).length = l.length := by rw [← trim, h]
  have h2 : (trimLeft l).length = l.length := by
    have := length_trimRight_le (trimLeft l)
    have := length_trimLeft_le l
    omega
  have h3 := trimLeft_eq_self_of_length h2
  refine ⟨h3, ?_⟩
  have : trim l = trimRight l := by rw [trim, h3]
  rw [← this, h]

theorem trimLeft_eq_self_of_all {l : Str} (h : ∀ c ∈ l, isWS c = false) :
    trimLeft l = l := by
  cases l with
  | nil => rfl
  | cons x xs => exact trimLeft_cons_not_ws (h x (List.mem_cons_self _ _))

theorem trimRight_eq_self_of_all {l : Str} (h : ∀ c ∈ l, isWS c = false) :
    trimRight l = l := by
  induction l with
  | nil => rfl
  | cons x xs ih =>
    have hxs : trimRight xs = xs := ih (fun c hc => h c (List.mem_cons_of_mem _ hc))
    cases xs with
    | nil =>
      rw [trimRight_cons_of_eq_nil (show trimRight [] = [] from rfl)]
      simp [h x (List.mem_cons_self _ _)]
    | cons y ys =>
      rw [trimRight_cons_of_ne_nil (by rw [hxs]; simp), hxs]

theorem trim_eq_self_of_all {l : Str} (h : ∀ c ∈ l, isWS c = false) : trim l = l := by
  unfold trim
  rw [trimLeft_eq_self_of_all h, trimRight_eq_self_of_all h]

theorem trim_trim (l : Str) : trim (trim l) = trim l := by
  rcases h : trim l with _ | ⟨c, r⟩
  · rfl
  · have hhead : isWS c = false := trim_head_not_ws h
    have hlast : ∀ x, (c :: r).getLast? = some x → isWS x = false := by
      intro x hx
      apply trimRight_getLast_not_ws (l := trimLeft l)
      show (trimRight (trimLeft l)).getLast? = some x
      rw [show trimRight (trimLeft l) = trim l from rfl, h]
      exact hx
    unfold trim
    rw [trimLeft_cons_not_ws hhead]
    obtain ⟨x, hx⟩ : ∃ x, (c :: r).getLast? = some x :=
      ⟨(c :: r).getLast (by simp), List.getLast?_eq_getLast _ _⟩
    exact trimRight_eq_self hx (hlast x hx)

theorem trim_append_of_head {c : Char} {k t : Str} (hc : isWS c = false)
    (ht : trimRight t ≠ []) :
    trim ((c :: k) ++ t) = (c :: k) ++ trimRight t := by
  rw [trim, List.cons_append, trimLeft_cons_not_ws hc, ← List.cons_append,
    trimRight_append ht]

/-! Lemmas about `splitOnChar` and `joinSep`. -/

theorem splitOnChar_ne_nil (sep : Char) (s : Str) : splitOnChar sep s ≠ [] := by
  cases s with
  | nil => simp [splitOnChar]
  | cons c cs =>
    unfold splitOnChar
    by_cases h : c = sep
    · simp [h]
    · simp only [h]
      rcases hr : splitOnChar sep cs with _ | ⟨p, ps⟩ <;> simp [h, hr]

theorem splitOnChar_cons_of_ne {sep c : Char} {cs p : Str} {ps : List Str}
    (hc : ¬(c = sep)) (h : splitOnChar sep cs = p :: ps) :
    splitOnChar sep (c :: cs) = (c :: p) :: ps := by
  conv_lhs => unfold splitOnChar
  rw [if_neg hc, h]

theorem splitOnChar_of_not_mem {sep : Char} {s : Str} (h : sep ∉ s) :
    splitOnChar sep s = [s] := by
  induction s with
  | nil => rfl
  | cons c cs ih =>
    have hc : ¬(c = sep) := fun he => h (he ▸ List.mem_cons_self _ _)
    have hcs : splitOnChar sep cs = [cs] := ih (fun hm => h (List.mem_cons_of_mem _ hm))
    exact splitOnChar_cons_of_ne hc hcs

theorem splitOnChar_append_cons {sep : Char} {a t : Str} (h : sep ∉ a) :
    splitOnChar sep (a ++ sep :: t) = a :: splitOnChar sep t := by
  induction a with
  | nil =>
    show splitOnChar sep (sep :: t) = _
    conv_lhs => unfold splitOnChar
    rw [if_pos rfl]
  | cons c cs ih =>
    have hc : ¬(c = sep) := fun he => h (he ▸ List.mem_cons_self _ _)
    have hcs := ih (fun hm => h (List.mem_cons_of_mem _ hm))
    exact splitOnChar_cons_of_ne hc hcs

theorem joinSep_cons {sep : Char} {p : Str} {ps : List Str} (h : ps ≠ []) :
    joinSep sep (p :: ps) = p ++ sep :: joinSep sep ps := by
  cases ps with
  | nil => exact absurd rfl h
  | cons q qs => rfl

theorem splitOnChar_joinSep {sep : Char} {ps : List Str} (hne : ps ≠ [])
    (h : ∀ p ∈ ps, sep ∉ p) : splitOnChar sep (joinSep sep ps) = ps := by
  induction ps with
  | nil => exact absurd rfl hne
  | cons p ps ih =>
    cases ps with
    | nil => exact splitOnChar_of_not_mem (h p (List.mem_cons_self _ _))
    | cons q qs =>
      rw [joinSep_cons (by simp),
        splitOnChar_append_cons (h p (List.mem_cons_self _ _)),
        ih (by simp) (fun x hx => h x (List.mem_cons_of_mem _ hx))]

theorem mem_joinSep {sep : Char} {ps : List Str} {c : Char}
    (h : c ∈ joinSep sep ps) : c = sep ∨ ∃ p ∈ ps, c ∈ p := by
  induction ps with
  | nil => simp [joinSep] at h
  | cons p ps ih =>
    cases ps with
    | nil =>
      right; exact ⟨p, List.mem_cons_self _ _, h⟩
    | cons q qs =>
      rw [joinSep_cons (by simp)] at h
      rcases List.mem_append.mp h with h1 | h2
      · right; exact ⟨p, List.mem_cons_self _ _, h1⟩
      · rcases List.mem_cons.mp h2 with rfl | h3
        · left; rfl
        · rcases ih h3 with h4 | ⟨r, hr, hcr⟩
          · left; exact h4
          · right; exact ⟨r, List.mem_cons_of_mem _ hr, hcr⟩

theorem joinSep_head_append (sep : Char) (p : Str) (ps : List Str) :
    ∃ t, joinSep sep (p :: ps) = p ++ t := by
  cases ps with
  | nil => exact ⟨[], by simp [joinSep]⟩
  | cons q qs => exact ⟨sep :: joinSep sep (q :: qs), rfl⟩

theorem getLast?_joinSep {sep : Char} {ps : List Str} {q : Str}
    (h : ps.getLast? = some q) (hq : q ≠ []) (hall : ∀ p ∈ ps, p ≠ []) :
    (joinSep sep ps).getLast? = q.getLast? := by
  induction ps with
  | nil => simp at h
  | cons p ps ih =>
    cases ps with
    | nil =>
      simp at h
      subst h; rfl
    | cons r rs =>
      rw [List.getLast?_cons_cons] at h
      have hih := ih h (fun x hx => hall x (List.mem_cons_of_mem _ hx))
      rw [joinSep_cons (by simp)]
      rcases hy : joinSep sep (r :: rs) with _ | ⟨a, t⟩
      · rw [hy] at hih
        obtain ⟨z, hz⟩ : ∃ z, q.getLast? = some z :=
          ⟨q.getLast hq, List.getLast?_eq_getLast _ _⟩
        rw [hz] at hih
        simp at hih
      · rw [hy] at hih
        rw [List.getLast?_append, List.getLast?_cons_cons, hih]
        obtain ⟨z, hz⟩ : ∃ z, q.getLast? = some z :=
          ⟨q.getLast hq, List.getLast?_eq_getLast _ _⟩
        rw [hz]
        rfl

/-! Lemmas about `strStartsWith`, `strEndsWith` and `firstIdx`. -/

theorem strStartsWith_iff {p s : Str} : strStartsWith p s = true ↔ ∃ t, s = p ++ t := by
  induction p generalizing s with
  | nil => simp [strStartsWith]
  | cons x xs ih =>
    cases s with
    | nil =>
      simp [strStartsWith]
    | cons c cs =>
      unfold strStartsWith
      rw [Bool.and_eq_true, ih]
      constructor
      · rintro ⟨h1, t, rfl⟩
        have hx : x = c := by simpa using h1
        subst hx
        exact ⟨t, by simp⟩
      · rintro ⟨t, ht⟩
        injection ht with h1 h2
        exact ⟨by simp [h1], t, h2⟩

theorem strEndsWith_iff {suf s : Str} : strEndsWith suf s = true ↔ ∃ t, s = t ++ suf := by
  rw [strEndsWith, strStartsWith_iff]
  constructor
  · rintro ⟨t, ht⟩
    refine ⟨t.reverse, ?_⟩
    have := congrArg List.reverse ht
    simpa using this
  · rintro ⟨t, rfl⟩
    exact ⟨t.reverse, by simp⟩

theorem strEndsWith_single_iff {a : Char} {s : Str} :
    strEndsWith [a] s = true ↔ s.getLast? = some a := by
  rw [strEndsWith]
  rw [← List.head?_reverse]
  cases s.reverse with
  | nil => simp [strStartsWith]
  | cons c cs =>
    unfold strStartsWith
    simp [strStartsWith, eq_comm]

theorem firstIdx_eq_none_iff {c : Char} {s : Str} : firstIdx c s = none ↔ c ∉ s := by
  induction s with
  | nil => simp [firstIdx]
  | cons x xs ih =>
    unfold firstIdx
    by_cases h : x = c
    · simp [h]
    · simp only [h, if_false]
      constructor
      · intro hm
        have hnone : firstIdx c xs = none := by
          rcases he : firstIdx c xs with _ | n
          · rfl
          · rw [he] at hm; simp at hm
        have hni := ih.mp hnone
        simp [List.mem_cons, Ne.symm h, hni]
      · intro hm
        rw [ih.mpr (fun hx => hm (List.mem_cons_of_mem _ hx))]
        rfl

theorem firstIdx_append_cons {c : Char} {a t : Str} (h : c ∉ a) :
    firstIdx c (a ++ c :: t) = some a.length := by
  induction a with
  | nil => simp [firstIdx]
  | cons x xs ih =>
    have hx : ¬(x = c) := fun he => h (he ▸ List.mem_cons_self _ _)
    show firstIdx c (x :: (xs ++ c :: t)) = _
    unfold firstIdx
    rw [ih (fun hm => h (List.mem_cons_of_mem _ hm))]
    simp [hx]

/-! Lemmas about digits and characters. -/

theorem ne_of_isDigit {c x : Char} (h : c.isDigit = true) (hx : ¬ x.isDigit = true) :
    c ≠ x := fun he => hx (he ▸ h)

theorem isDigit_not_ws {c : Char} (h : c.isDigit = true) : isWS c = false := by
  by_contra h2
  simp only [Bool.not_eq_false] at h2
  simp [isWS] at h2
  rcases h2 with ((((rfl | rfl) | rfl) | rfl) | rfl) | rfl <;> exact absurd h (by decide)

theorem digitChar_isDigit {d : Nat} (h : d < 10) : (digitChar d).isDigit = true := by
  interval_cases d <;> decide

theorem toNat_digitChar {d : Nat} (h : d < 10) : (digitChar d).toNat = 48 + d := by
  interval_cases d <;> decide

theorem natToDigits_small {n : Nat} (h : n < 10) : natToDigits n = [digitChar n] := by
  unfold natToDigits
  rw [if_pos h]

theorem natToDigits_big {n : Nat} (h : ¬ n < 10) :
    natToDigits n = natToDigits (n / 10) ++ [digitChar (n % 10)] := by
  conv_lhs => unfold natToDigits
  rw [if_neg h]

theorem natToDigits_ne_nil (n : Nat) : natToDigits n ≠ [] := by
  by_cases h : n < 10
  · rw [natToDigits_small h]; simp
  · rw [natToDigits_big h]; simp

theorem natToDigits_all_digit (n : Nat) : ∀ c ∈ natToDigits n, c.isDigit = true := by
  induction n using Nat.strong_induction_on with
  | _ n ih =>
    by_cases h : n < 10
    · rw [natToDigits_small h]
      intro c hc
      rcases List.mem_singleton.mp hc with rfl
      exact digitChar_isDigit h
    · rw [natToDigits_big h]
      intro c hc
      rcases List.mem_append.mp hc with h1 | h2
      · exact ih (n / 10) (Nat.div_lt_self (by omega) (by omega)) c h1
      · rcases List.mem_singleton.mp h2 with rfl
        exact digitChar_isDigit (Nat.mod_lt _ (by omega))

theorem digitsVal_append_single (xs : Str) (c : Char) :
    digitsVal (xs ++ [c]) = digitsVal xs * 10 + (c.toNat - 48) := by
  unfold digitsVal
  rw [List.foldl_append]
  rfl

theorem digitsVal_natToDigits (n : Nat) : digitsVal (natToDigits n) = n := by
  induction n using Nat.strong_induction_on with
  | _ n ih =>
    by_cases h : n < 10
    · rw [natToDigits_small h]
      show 0 * 10 + ((digitChar n).toNat - 48) = n
      rw [toNat_digitChar h]
      omega
    · rw [natToDigits_big h, digitsVal_append_single,
        ih (n / 10) (Nat.div_lt_self (by omega) (by omega)),
        toNat_digitChar (Nat.mod_lt _ (by omega))]
      omega

/-- All characters of the decimal representation of an integer are digits
or a leading minus sign; in particular none of them is a structural
character of the TOON format. -/
theorem intRepr_chars {z : Int} {c : Char} (h : c ∈ intRepr z) :
    c = '-' ∨ c.isDigit = true := by
  unfold intRepr at h
  by_cases hz : z < 0
  · rw [if_pos hz] at h
    rcases List.mem_cons.mp h with rfl | h2
    · exact Or.inl rfl
    · exact Or.inr (natToDigits_all_digit _ c h2)
  · rw [if_neg hz] at h
    exact Or.inr (natToDigits_all_digit _ c h)

theorem intRepr_ne_nil (z : Int) : intRepr z ≠ [] := by
  unfold intRepr
  by_cases hz : z < 0
  · rw [if_pos hz]; simp
  · rw [if_neg hz]; exact natToDigits_ne_nil _

theorem natToDigitsPad_chars {n w : Nat} {c : Char} (h : c ∈ natToDigitsPad n w) :
    c.isDigit = true := by
  unfold natToDigitsPad at h
  rcases List.mem_append.mp h with h1 | h2
  · rw [List.eq_of_mem_replicate h1]
    decide
  · exact natToDigits_all_digit _ c h2

/-- All characters of the fixed-point decimal printing are digits, the
decimal point, or a leading minus sign. -/
theorem decRepr_chars {m : Int} {e : Nat} {c : Char} (hc : c ∈ decRepr m e) :
    c = '-' ∨ c = '.' ∨ c.isDigit = true := by
  unfold decRepr at hc
  rcases List.mem_append.mp hc with h1 | h2
  · by_cases hm : m < 0
    · rw [if_pos hm] at h1
      exact Or.inl (List.mem_singleton.mp h1)
    · rw [if_neg hm] at h1
      simp at h1
  · rcases List.mem_append.mp h2 with h3 | h4
    · exact Or.inr (Or.inr (natToDigitsPad_chars (List.take_subset _ _ h3)))
    · rcases List.mem_cons.mp h4 with rfl | h5
      · exact Or.inr (Or.inl rfl)
      · exact Or.inr (Or.inr (natToDigitsPad_chars (List.drop_subset _ _ h5)))

theorem decRepr_ne_nil (m : Int) (e : Nat) : decRepr m e ≠ [] := by
  unfold decRepr
  intro h
  rcases List.append_eq_nil.mp h with ⟨_, h2⟩
  rcases List.append_eq_nil.mp h2 with ⟨_, h3⟩
  exact List.cons_ne_nil _ _ h3

/-! Round-trip lemmas for numeric scalars. -/

theorem takeWhile_all {p : Char → Bool} {l : Str} (h : ∀ c ∈ l, p c = true) :
    l.takeWhile p = l := by
  induction l with
  | nil => rfl
  | cons c cs ih =>
    rw [List.takeWhile_cons, h c (List.mem_cons_self _ _)]
    simp only [if_true]
    rw [ih (fun x hx => h x (List.mem_cons_of_mem _ hx))]

theorem dropWhile_all {p : Char → Bool} {l : Str} (h : ∀ c ∈ l, p c = true) :
    l.dropWhile p = [] := by
  induction l with
  | nil => rfl
  | cons c cs ih =>
    rw [List.dropWhile_cons, h c (List.mem_cons_self _ _)]
    simp only [if_true]
    exact ih (fun x hx => h x (List.mem_cons_of_mem _ hx))

theorem decLit_digits {t : Str} (hne : t ≠ [])
    (hall : ∀ c ∈ t, c.isDigit = true) :
    decLit t = some (digitsVal t, 0, 0) := by
  unfold decLit
  rw [dropWhile_all hall, takeWhile_all hall]
  rw [if_neg (by simp [strStartsWith]), if_neg hne]
  rfl

theorem mkDecNum_int (m : Nat) : mkDecNum false m 0 0 = .int m := by
  unfold mkDecNum
  rw [if_neg (by omega)]
  norm_num

theorem mkDecNum_negInt (m : Nat) : mkDecNum true m 0 0 = .int (-(m : Int)) := by
  unfold mkDecNum
  rw [if_neg (by omega)]
  norm_num

theorem jsStringToNumber_all_digit {t : Str} (hne : t ≠ [])
    (hall : ∀ c ∈ t, c.isDigit = true) :
    jsStringToNumber t = some (.int (digitsVal t)) := by
  have htr : trim t = t := trim_eq_self_of_all (fun c hc => isDigit_not_ws (hall c hc))
  have hmem : ∀ x : Char, ¬ x.isDigit = true → x ∉ t := fun x hx hmemx => hx (hall x hmemx)
  have hI : t ≠ "Infinity".toList := fun h => hmem 'I' (by decide) (by rw [h]; decide)
  have hpI : t ≠ "+Infinity".toList := fun h => hmem '+' (by decide) (by rw [h]; decide)
  have hnI : t ≠ "-Infinity".toList := fun h => hmem '-' (by decide) (by rw [h]; decide)
  have hsw : ∀ a b : Char, ¬ b.isDigit = true → strStartsWith [a, b] t = false := by
    intro a b hb
    by_contra hcon
    simp only [Bool.not_eq_false] at hcon
    obtain ⟨r, hr⟩ := strStartsWith_iff.mp hcon
    exact hmem b hb (by rw [hr]; simp)
  have hsw1 : ∀ a : Char, ¬ a.isDigit = true → strStartsWith [a] t = false := by
    intro a ha
    by_contra hcon
    simp only [Bool.not_eq_false] at hcon
    obtain ⟨r, hr⟩ := strStartsWith_iff.mp hcon
    exact hmem a ha (by rw [hr]; simp)
  have hallb : t.all Char.isDigit = true := List.all_eq_true.mpr hall
  unfold jsStringToNumber
  simp only [htr]
  rw [if_neg hne]
  rw [if_neg (by
    simp only [Bool.or_eq_true, decide_eq_true_eq]
    rintro (h | h)
    exacts [hI h, hpI h])]
  rw [if_neg hnI]
  rw [if_neg (by simp [hsw '0' 'x' (by decide), hsw '0' 'X' (by decide)])]
  rw [if_neg (by simp [hsw '0' 'o' (by decide), hsw '0' 'O' (by decide)])]
  rw [if_neg (by simp [hsw '0' 'b' (by decide), hsw '0' 'B' (by decide)])]
  rw [if_neg (by simp [hsw1 '+' (by decide)])]
  rw [if_neg (by simp [hsw1 '-' (by decide)])]
  rw [decLit_digits hne hall]
  simp [Option.map, mkDecNum_int]

theorem jsStringToNumber_neg_digits {ds : Str} (hne : ds ≠ [])
    (hall : ∀ c ∈ ds, c.isDigit = true) :
    jsStringToNumber ('-' :: ds) = some (.int (-(digitsVal ds : Int))) := by
  have htr : trim ('-' :: ds) = '-' :: ds := by
    apply trim_eq_self_of_all
    intro c hc
    rcases List.mem_cons.mp hc with rfl | h2
    · decide
    · exact isDigit_not_ws (hall c h2)
  have hdmem : ∀ x : Char, ¬ x.isDigit = true → x ∉ ds := fun x hx hmemx => hx (hall x hmemx)
  have hI : ('-' :: ds) ≠ "Infinity".toList := by
    intro h
    have : 'I' ∈ '-' :: ds := by rw [h]; decide
    rcases List.mem_cons.mp this with h2 | h2
    · exact absurd h2 (by decide)
    · exact hdmem 'I' (by decide) h2
  have hpI : ('-' :: ds) ≠ "+Infinity".toList := by
    intro h
    have h2 := (h.trans (by decide : "+Infinity".toList = '+' :: "Infinity".toList))
    injection h2 with h3 _
    exact absurd h3 (by decide)
  have hnI : ('-' :: ds) ≠ "-Infinity".toList := by
    intro h
    have h2 := (h.trans (by decide : "-Infinity".toList = '-' :: "Infinity".toList))
    injection h2 with _ h3
    exact hdmem 'I' (by decide) (by rw [h3]; decide)
  have hallb : ds.all Char.isDigit = true := List.all_eq_true.mpr hall
  unfold jsStringToNumber
  simp only [htr]
  rw [if_neg (by simp)]
  rw [if_neg (by
    simp only [Bool.or_eq_true, decide_eq_true_eq]
    rintro (h | h)
    exacts [hI h, hpI h])]
  rw [if_neg hnI]
  rw [if_neg (by simp [strStartsWith])]
  rw [if_neg (by simp [strStartsWith])]
  rw [if_neg (by simp [strStartsWith])]
  rw [if_neg (by simp [strStartsWith])]
  rw [if_pos (by simp [strStartsWith])]
  simp only [List.drop_succ_cons, List.drop_zero]
  rw [decLit_digits hne hall]
  simp [Option.map, mkDecNum_negInt]

theorem jsStringToNumber_intRepr (z : Int) :
    jsStringToNumber (intRepr z) = some (.int z) := by
  by_cases hz : z < 0
  · rw [intRepr, if_pos hz,
      jsStringToNumber_neg_digits (natToDigits_ne_nil _) (natToDigits_all_digit _),
      digitsVal_natToDigits]
    congr 2
    omega
  · rw [intRepr, if_neg hz,
      jsStringToNumber_all_digit (natToDigits_ne_nil _) (natToDigits_all_digit _),
      digitsVal_natToDigits]
    congr 2
    omega

theorem parseToonValue_intRepr (z : Int) : parseToonValue (intRepr z) = .num (.int z) := by
  have hchars := fun c hc => intRepr_chars (z := z) (c := c) hc
  have hnonws : ∀ c ∈ intRepr z, isWS c = false := by
    intro c hc
    rcases hchars c hc with rfl | h2
    · decide
    · exact isDigit_not_ws h2
  have htr : trim (intRepr z) = intRepr z := trim_eq_self_of_all hnonws
  have hbad : ∀ x : Char, x ≠ '-' → ¬ x.isDigit = true → x ∉ intRepr z := by
    intro x h1 h2 hmem
    rcases hchars x hmem with h3 | h3
    · exact h1 h3
    · exact h2 h3
  have hnull : intRepr z ≠ "null".toList := fun h =>
    hbad 'u' (by decide) (by decide) (by rw [h]; decide)
  have htrue : intRepr z ≠ "true".toList := fun h =>
    hbad 'r' (by decide) (by decide) (by rw [h]; decide)
  have hfalse : intRepr z ≠ "false".toList := fun h =>
    hbad 'a' (by decide) (by decide) (by rw [h]; decide)
  unfold parseToonValue
  rw [if_neg hnull, if_neg htrue, if_neg hfalse, if_neg (intRepr_ne_nil z),
    jsStringToNumber_intRepr]
  show (if trim (intRepr z) ≠ [] then Value.num (.int z) else .str (intRepr z)) = _
  rw [if_pos (by rw [htr]; exact intRepr_ne_nil z)]

theorem parseToonValue_num {x : JSNum} (h : intOrInf x) :
    parseToonValue (jsNumToString x) = .num x := by
  rcases h with ⟨z, rfl⟩ | rfl | rfl
  · exact parseToonValue_intRepr z
  · rfl
  · rfl

theorem parseToonValue_str {s : Str} (hne : s ≠ []) (hnull : s ≠ "null".toList)
    (htrue : s ≠ "true".toList) (hfalse : s ≠ "false".toList)
    (hnum : jsStringToNumber s = none) : parseToonValue s = .str s := by
  unfold parseToonValue
  rw [if_neg hnull, if_neg htrue, if_neg hfalse, if_neg hne, hnum]

/-! Lemmas about the line pipeline and the header parsers. -/

theorem takeWhile_append_stop {p : Char → Bool} {xs : Str} {y : Char} {ys : Str}
    (hxs : ∀ x ∈ xs, p x = true) (hy : p y = false) :
    (xs ++ y :: ys).takeWhile p = xs ∧ (xs ++ y :: ys).dropWhile p = y :: ys := by
  induction xs with
  | nil => simp [List.takeWhile_cons, List.dropWhile_cons, hy]
  | cons x xs ih =>
    have hx := hxs x (List.mem_cons_self _ _)
    have ⟨ih1, ih2⟩ := ih (fun a ha => hxs a (List.mem_cons_of_mem _ ha))
    constructor
    · show List.takeWhile p (x :: (xs ++ y :: ys)) = _
      rw [List.takeWhile_cons, hx]
      simp [ih1]
    · show List.dropWhile p (x :: (xs ++ y :: ys)) = _
      rw [List.dropWhile_cons, hx]
      simpa using ih2

theorem piece_head_not_ws {p : Str} (hts : trim p = p) (hne : p ≠ []) :
    ∃ c r, p = c :: r ∧ isWS c = false := by
  cases p with
  | nil => exact absurd rfl hne
  | cons c r => exact ⟨c, r, rfl, trim_head_not_ws hts⟩

theorem piece_getLast_not_ws {p : Str} (hts : trim p = p) (hne : p ≠ []) :
    ∃ d, p.getLast? = some d ∧ isWS d = false := by
  have hparts := trim_eq_self_parts hts
  refine ⟨p.getLast hne, List.getLast?_eq_getLast _ _, ?_⟩
  apply trimRight_getLast_not_ws (l := p)
  rw [hparts.2]
  exact List.getLast?_eq_getLast _ _

theorem trim_joinSep {sep : Char} {ps : List Str} (hne : ps ≠ [])
    (hnb : ∀ p ∈ ps, p ≠ []) (hts : ∀ p ∈ ps, trim p = p) :
    trim (joinSep sep ps) = joinSep sep ps := by
  cases ps with
  | nil => exact absurd rfl hne
  | cons p0 rest =>
    obtain ⟨c, r, hp0, hc⟩ :=
      piece_head_not_ws (hts p0 (List.mem_cons_self _ _)) (hnb p0 (List.mem_cons_self _ _))
    obtain ⟨t, ht⟩ := joinSep_head_append sep p0 rest
    have hq : (p0 :: rest).getLast? = some ((p0 :: rest).getLast (by simp)) :=
      List.getLast?_eq_getLast _ _
    have hqmem := List.getLast_mem (l := p0 :: rest) (by simp)
    obtain ⟨d, hd, hdw⟩ :=
      piece_getLast_not_ws (hts _ hqmem) (hnb _ hqmem)
    have hlast : (joinSep sep (p0 :: rest)).getLast? = some d := by
      rw [getLast?_joinSep hq (hnb _ hqmem) hnb, hd]
    unfold trim
    have htleft : trimLeft (joinSep sep (p0 :: rest)) = joinSep sep (p0 :: rest) := by
      rw [ht, hp0, List.cons_append]
      exact trimLeft_cons_not_ws hc
    rw [htleft]
    exact trimRight_eq_self hlast hdw

theorem toonLines_joinSep {ps : List Str} (hne : ps ≠ [])
    (hnl : ∀ p ∈ ps, '\n' ∉ p)
    (hnb : ∀ p ∈ ps, trim p ≠ [])
    (hts : ∀ p ∈ ps, trim p = p) :
    toonLines (joinSep '\n' ps) = ps := by
  have hne2 : ∀ p ∈ ps, p ≠ [] := by
    intro p hp h
    exact hnb p hp (by rw [h]; rfl)
  unfold toonLines
  rw [trim_joinSep hne hne2 hts, splitOnChar_joinSep hne hnl]
  apply List.filter_eq_self.mpr
  intro a ha
  simpa using hnb a ha

theorem toonLines_single {p : Str} (hnl : '\n' ∉ p) (hnb : trim p ≠ []) (hts : trim p = p) :
    toonLines p = [p] := by
  have := @toonLines_joinSep [p] (by simp) (by simpa using hnl)
    (by simpa using hnb) (by simpa using hts)
  simpa [joinSep] using this

theorem headerDispatch_mkTabularHeader {ds c : Str} (hne : ds ≠ [])
    (hdig : ∀ x ∈ ds, x.isDigit = true) :
    headerDispatch (mkTabularHeader ds c) = true := by
  have ⟨ht, hd⟩ := @takeWhile_append_stop Char.isDigit ds ']'
    ('{' :: (c ++ ['}', ':'])) hdig (by decide)
  unfold headerDispatch mkTabularHeader
  simp only [List.tail_cons]
  simp only [ht, hd]
  simp only [headerTailCheck, Bool.and_eq_true, decide_eq_true_eq]
  exact ⟨⟨by simp [strStartsWith], hne⟩, ⟨trivial, trivial⟩, strEndsWith_iff.mpr ⟨c, by simp⟩⟩

theorem headerFullParse_mkTabularHeader {ds c : Str} (hne : ds ≠ [])
    (hdig : ∀ x ∈ ds, x.isDigit = true) (hc : c ≠ []) :
    headerFullParse (mkTabularHeader ds c) = some (digitsVal ds, c) := by
  have ⟨ht, hd⟩ := @takeWhile_append_stop Char.isDigit ds ']'
    ('{' :: (c ++ ['}', ':'])) hdig (by decide)
  unfold headerFullParse mkTabularHeader
  simp only [List.tail_cons]
  rw [if_pos (by simp [strStartsWith])]
  simp only [ht, hd]
  rw [if_neg hne]
  simp only [headerFullTail]
  rw [if_pos (by
    refine ⟨by simp, by simp, strEndsWith_iff.mpr ⟨c, by simp⟩, ?_⟩
    have : 1 ≤ c.length := by
      cases c with
      | nil => exact absurd rfl hc
      | cons a b => simp
    simp
    omega)]
  congr 1
  have h1 : (c ++ ['}', ':']).dropLast = c ++ ['}'] := by
    rw [show c ++ ['}', ':'] = (c ++ ['}']) ++ [':'] by simp, List.dropLast_concat]
  rw [h1, List.dropLast_concat]

theorem headerDispatch_colon_mem {s : Str} (h : headerDispatch s = true) : ':' ∈ s := by
  unfold headerDispatch at h
  simp only [Bool.and_eq_true, decide_eq_true_eq] at h
  obtain ⟨⟨hstart, hds⟩, htail⟩ := h
  obtain ⟨t, rfl⟩ := strStartsWith_iff.mp hstart
  simp only [List.singleton_append, List.tail_cons] at htail
  rcases hd : t.dropWhile Char.isDigit with _ | ⟨b, r2⟩
  · rw [hd] at htail; simp [headerTailCheck] at htail
  · rcases r2 with _ | ⟨d, r3⟩
    · rw [hd] at htail; simp [headerTailCheck] at htail
    · rw [hd] at htail
      simp only [headerTailCheck, Bool.and_eq_true, decide_eq_true_eq] at htail
      obtain ⟨⟨hb, hdd⟩, hend⟩ := htail
      obtain ⟨u, hu⟩ := strEndsWith_iff.mp hend
      have hmem : ':' ∈ t.dropWhile Char.isDigit := by rw [hd, hu]; simp
      exact List.mem_cons_of_mem _ ((List.dropWhile_sublist _).mem hmem)

theorem twoSpace_trim_false (s : Str) : strStartsWith [' ', ' '] (trim s) = false := by
  rcases h : trim s with _ | ⟨c, r⟩
  · rfl
  · have hc := trim_head_not_ws h
    unfold strStartsWith
    have : ¬(' ' = c) := by
      intro he
      rw [← he] at hc
      exact absurd hc (by decide)
    simp [this]

/-! Step lemmas for the object-parse loop. -/

theorem go_step_blank {fuel : Nat} {res : Obj} {l : Str} {rest : List Str}
    (h : trim l = []) :
    parseToonObjectGo (fuel + 1) res (l :: rest) = parseToonObjectGo fuel res rest := by
  conv_lhs => unfold parseToonObjectGo
  rw [if_pos h]

theorem go_step_kv {fuel : Nat} {res : Obj} {l : Str} {rest : List Str} {j : Nat}
    (hnb : trim l ≠ []) (hend : strEndsWith [':'] (trim l) = false)
    (hidx : firstIdx ':' (trim l) = some (j + 1)) :
    parseToonObjectGo (fuel + 1) res (l :: rest) =
      parseToonObjectGo fuel
        (objInsert res (trim ((trim l).take (j + 1)))
          (parseToonValue (trim ((trim l).drop (j + 2))))) rest := by
  conv_lhs => unfold parseToonObjectGo
  rw [if_neg hnb, if_neg (by simp [hend]), hidx]

theorem go_step_skip {fuel : Nat} {res : Obj} {l : Str} {rest : List Str}
    (hend : strEndsWith [':'] (trim l) = false)
    (hidx : firstIdx ':' (trim l) = none ∨ firstIdx ':' (trim l) = some 0) :
    parseToonObjectGo (fuel + 1) res (l :: rest) = parseToonObjectGo fuel res rest := by
  by_cases hnb : trim l = []
  · exact go_step_blank hnb
  · conv_lhs => unfold parseToonObjectGo
    rw [if_neg hnb, if_neg (by simp [hend])]
    rcases hidx with h | h <;> rw [h]

theorem go_step_barekey_nil {fuel : Nat} {res : Obj} {l : Str}
    (hnb : trim l ≠ []) (hend : strEndsWith [':'] (trim l) = true) :
    parseToonObjectGo (fuel + 1) res [l] =
      .ok (objInsert res (trim (trim l).dropLast) .null) := by
  conv_lhs => unfold parseToonObjectGo
  rw [if_neg hnb, if_pos hend]
  dsimp only
  cases fuel <;> rfl

theorem go_step_barekey_scalar {fuel : Nat} {res : Obj} {l next : Str} {rest2 : List Str}
    (hnb : trim l ≠ []) (hend : strEndsWith [':'] (trim l) = true)
    (hdp : headerDispatch (trim next) = false) :
    parseToonObjectGo (fuel + 1) res (l :: next :: rest2) =
      parseToonObjectGo fuel
        (objInsert res (trim (trim l).dropLast) (parseToonValue (trim next))) rest2 := by
  conv_lhs => unfold parseToonObjectGo
  rw [if_neg hnb, if_pos hend]
  dsimp only
  rw [if_neg (by simp [hdp]), if_neg (by simp [twoSpace_trim_false])]

theorem go_step_barekey_array {fuel : Nat} {res : Obj} {l next : Str} {rest2 : List Str}
    (hnb : trim l ≠ []) (hend : strEndsWith [':'] (trim l) = true)
    (hdp : headerDispatch (trim next) = true) :
    parseToonObjectGo (fuel + 1) res (l :: next :: rest2) =
      (match parseToonArray (trim next ::
          rest2.takeWhile
            (fun l2 => !strEndsWith [':'] (trim l2) && !keyLineHeur (trim l2))) with
       | .error e => .error e
       | .ok a =>
         parseToonObjectGo fuel (objInsert res (trim (trim l).dropLast) (.arr a))
           (rest2.drop (rest2.takeWhile
             (fun l2 => !strEndsWith [':'] (trim l2) && !keyLineHeur (trim l2))).length)) := by
  conv_lhs => unfold parseToonObjectGo
  rw [if_neg hnb, if_pos hend]
  dsimp only
  rw [if_pos hdp]

/-! Error characterisation of the decoder. -/

theorem parseToonArray_error {ls : List Str} {e : Str}
    (h : parseToonArray ls = .error e) :
    e = "Invalid array header format".toList ∧
    ∃ l0 rest, ls = l0 :: rest ∧ headerFullParse (trim l0) = none := by
  cases ls with
  | nil => simp [parseToonArray] at h
  | cons l0 rest =>
    unfold parseToonArray at h
    dsimp only at h
    rcases hh : headerFullParse (trim l0) with _ | pr
    · rw [hh] at h
      simp only [Except.error.injEq] at h
      exact ⟨h.symm, l0, rest, rfl, hh⟩
    · rw [hh] at h
      simp at h

theorem parseToonObjectGo_error {fuel : Nat} {res : Obj} {lines : List Str} {e : Str}
    (h : parseToonObjectGo fuel res lines = .error e) :
    e = "Invalid array header format".toList ∧
    ∃ l ∈ lines, headerDispatch (trim l) = true ∧ headerFullParse (trim l) = none := by
  induction fuel generalizing res lines with
  | zero => simp [parseToonObjectGo] at h
  | succ fuel ih =>
    cases lines with
    | nil => simp [parseToonObjectGo] at h
    | cons l rest =>
      by_cases hnb : trim l = []
      · rw [go_step_blank hnb] at h
        obtain ⟨he, l2, hl2, hp⟩ := ih h
        exact ⟨he, l2, List.mem_cons_of_mem _ hl2, hp⟩
      · by_cases hend : strEndsWith [':'] (trim l) = true
        · cases rest with
          | nil =>
            rw [go_step_barekey_nil hnb hend] at h
            simp at h
          | cons next rest2 =>
            by_cases hdp : headerDispatch (trim next) = true
            · rw [go_step_barekey_array hnb hend hdp] at h
              rcases hx : parseToonArray (trim next ::
                  rest2.takeWhile
                    (fun l2 => !strEndsWith [':'] (trim l2) && !keyLineHeur (trim l2)))
                with e2 | a
              · rw [hx] at h
                simp only [Except.error.injEq] at h
                obtain ⟨he2, l0, r0, hcons, hfp⟩ := parseToonArray_error hx
                have hl0 : l0 = trim next := (List.cons.inj hcons).1.symm
                subst hl0
                rw [trim_trim] at hfp
                exact ⟨h ▸ he2, next, List.mem_cons_of_mem _ (List.mem_cons_self _ _),
                  hdp, hfp⟩
              · rw [hx] at h
                obtain ⟨he, l2, hl2, hp⟩ := ih h
                have : l2 ∈ rest2 := List.mem_of_mem_drop hl2
                exact ⟨he, l2,
                  List.mem_cons_of_mem _ (List.mem_cons_of_mem _ this), hp⟩
            · rw [go_step_barekey_scalar hnb hend (Bool.eq_false_iff.mpr hdp)] at h
              obtain ⟨he, l2, hl2, hp⟩ := ih h
              exact ⟨he, l2,
                List.mem_cons_of_mem _ (List.mem_cons_of_mem _ hl2), hp⟩
        · have hendf : strEndsWith [':'] (trim l) = false := Bool.eq_false_iff.mpr hend
          rcases hidx : firstIdx ':' (trim l) with _ | n
          · rw [go_step_skip hendf (Or.inl hidx)] at h
            obtain ⟨he, l2, hl2, hp⟩ := ih h
            exact ⟨he, l2, List.mem_cons_of_mem _ hl2, hp⟩
          · cases n with
            | zero =>
              rw [go_step_skip hendf (Or.inr hidx)] at h
              obtain ⟨he, l2, hl2, hp⟩ := ih h
              exact ⟨he, l2, List.mem_cons_of_mem _ hl2, hp⟩
            | succ j =>
              rw [go_step_kv hnb hendf hidx] at h
              obtain ⟨he, l2, hl2, hp⟩ := ih h
              exact ⟨he, l2, List.mem_cons_of_mem _ hl2, hp⟩

theorem toonToJson_error {t e : Str} (h : toonToJson t = .error e) :
    e = "Invalid array header format".toList ∧
    ∃ l ∈ toonLines t, headerDispatch (trim l) = true ∧ headerFullParse (trim l) = none := by
  unfold toonToJson at h
  rcases hl : toonLines t with _ | ⟨l0, rest⟩
  · rw [hl] at h; simp at h
  · rw [hl] at h
    dsimp only at h
    by_cases h1 : trim l0 = "[]:".toList
    · rw [if_pos h1] at h; simp at h
    · rw [if_neg h1] at h
      by_cases h2 : trim l0 = "{}:".toList
      · rw [if_pos h2] at h; simp at h
      · rw [if_neg h2] at h
        by_cases h3 : headerDispatch (trim l0) = true
        · rw [if_pos h3] at h
          rcases hx : parseToonArray (l0 :: rest) with e2 | a
          · rw [hx] at h
            simp only [Except.map, Except.error.injEq] at h
            obtain ⟨he2, la, ra, hcons, hfp⟩ := parseToonArray_error hx
            have hla : la = l0 := (List.cons.inj hcons).1.symm
            exact ⟨h ▸ he2, l0, List.mem_cons_self _ _, h3, hla ▸ hfp⟩
          · rw [hx] at h
            simp [Except.map] at h
        · rw [if_neg h3] at h
          unfold parseToonObject at h
          rcases hx : parseToonObjectGo (l0 :: rest).length [] (l0 :: rest) with e2 | a
          · rw [hx] at h
            simp only [Except.map, Except.error.injEq] at h
            obtain ⟨he2, l2, hl2, hdp2, hfp2⟩ := parseToonObjectGo_error hx
            exact ⟨h ▸ he2, l2, hl2, hdp2, hfp2⟩
          · rw [hx] at h
            simp [Except.map] at h

/-! Decoder facts about colon-free and blank input. -/

theorem mem_of_getLast? {l : List Char} {a : Char} (h : l.getLast? = some a) : a ∈ l := by
  induction l with
  | nil => simp at h
  | cons x xs ih =>
    cases xs with
    | nil => simp at h; simp [h]
    | cons y ys =>
      rw [List.getLast?_cons_cons] at h
      exact List.mem_cons_of_mem _ (ih h)

theorem splitOnChar_chars {sep : Char} {s p : Str} {c : Char}
    (hp : p ∈ splitOnChar sep s) (hc : c ∈ p) : c ∈ s := by
  induction s generalizing p with
  | nil =>
    simp [splitOnChar] at hp
    subst hp
    simp at hc
  | cons x xs ih =>
    by_cases hx : x = sep
    · subst hx
      have : splitOnChar x (x :: xs) = [] :: splitOnChar x xs := by
        conv_lhs => unfold splitOnChar
        rw [if_pos rfl]
      rw [this] at hp
      rcases List.mem_cons.mp hp with rfl | hp2
      · simp at hc
      · exact List.mem_cons_of_mem _ (ih hp2 hc)
    · rcases hsp : splitOnChar sep xs with _ | ⟨p0, ps⟩
      · exact absurd hsp (splitOnChar_ne_nil sep xs)
      · rw [splitOnChar_cons_of_ne hx hsp] at hp
        rcases List.mem_cons.mp hp with rfl | hp2
        · rcases List.mem_cons.mp hc with rfl | hc2
          · exact List.mem_cons_self _ _
          · exact List.mem_cons_of_mem _ (ih (by rw [hsp]; exact List.mem_cons_self _ _) hc2)
        · exact List.mem_cons_of_mem _ (ih (by rw [hsp]; exact List.mem_cons_of_mem _ hp2) hc)

theorem mem_toonLines_chars {t l : Str} {c : Char} (hl : l ∈ toonLines t) (hc : c ∈ l) :
    c ∈ t := by
  unfold toonLines at hl
  have hl2 := List.mem_of_mem_filter hl
  exact mem_trim (splitOnChar_chars hl2 hc)

theorem go_no_colon {lines : List Str} :
    ∀ {fuel : Nat} {res : Obj}, (∀ l ∈ lines, ':' ∉ l) → lines.length ≤ fuel →
    parseToonObjectGo fuel res lines = .ok res := by
  induction lines with
  | nil =>
    intro fuel res h hf
    cases fuel <;> rfl
  | cons l rest ih =>
    intro fuel res h hf
    obtain ⟨f, rfl⟩ : ∃ f, fuel = f + 1 := ⟨fuel - 1, by simp at hf; omega⟩
    have hcolon : ':' ∉ trim l := fun hc => h l (List.mem_cons_self _ _) (mem_trim hc)
    have hend : strEndsWith [':'] (trim l) = false := by
      by_contra hcon
      simp only [Bool.not_eq_false] at hcon
      exact hcolon (mem_of_getLast? (strEndsWith_single_iff.mp hcon))
    rw [go_step_skip hend (Or.inl (firstIdx_eq_none_iff.mpr hcolon))]
    exact ih (fun x hx => h x (List.mem_cons_of_mem _ hx)) (by simp at hf; omega)

theorem toonToJson_no_colon {t : Str} (h : ':' ∉ t) : toonToJson t = .ok (.obj []) := by
  have hlines : ∀ l ∈ toonLines t, ':' ∉ l := fun l hl hc => h (mem_toonLines_chars hl hc)
  unfold toonToJson
  rcases hl : toonLines t with _ | ⟨l0, rest⟩
  · rfl
  · dsimp only
    have hc0 : ':' ∉ trim l0 :=
      fun hc => hlines l0 (by rw [hl]; exact List.mem_cons_self _ _) (mem_trim hc)
    rw [if_neg (fun he => hc0 (by rw [he]; decide)),
      if_neg (fun he => hc0 (by rw [he]; decide)),
      if_neg (by
        intro he
        exact hc0 (headerDispatch_colon_mem he))]
    unfold parseToonObject
    have hlines2 : ∀ x ∈ l0 :: rest, ':' ∉ x := by rw [← hl]; exact hlines
    rw [go_no_colon hlines2 (le_refl _)]
    rfl

theorem toonLines_all_ws {t : Str} (h : ∀ c ∈ t, isWS c = true) : toonLines t = [] := by
  have htr : trim t = [] := trim_eq_nil_iff.mpr h
  unfold toonLines
  rw [htr]
  rfl

/-! Claim C9. -/

/-- C9: decoding an input that is empty or consists only of whitespace,
so that no non-blank line remains after filtering, returns the empty
Object, with no error, and neither an empty Array nor Null. -/
theorem claim_C9 (t : Str) (h : ∀ c ∈ t, isWS c = true) :
    toonToJson t = .ok (.obj []) := by
  unfold toonToJson
  rw [toonLines_all_ws h]

/-- Witness for C9 at a whitespace-only input. -/
theorem claim_C9_witness : toonToJson " \n\t ".toList = .ok (.obj []) :=
  claim_C9 " \n\t ".toList (by decide)

/-! Claim C4. -/

/-- C4: the decoder raises the error `Invalid array header format` on the
input `[3]{}:` (a line matching the bracket dispatch shape but not the
full header regex), and any erroring input carries exactly that message
and contains a line whose trimmed form matches the dispatch regex but
fails the full header regex; all other inputs produce a Value. -/
theorem claim_C4 :
    toonToJson "[3]{}:".toList = .error "Invalid array header format".toList ∧
    ∀ t e, toonToJson t = .error e →
      e = "Invalid array header format".toList ∧
      ∃ l ∈ toonLines t, headerDispatch (trim l) = true ∧
        headerFullParse (trim l) = none :=
  ⟨by rfl, fun _ _ h => toonToJson_error h⟩

/-- Witness for C4: the characterisation applied to the erroring input
`[3]{}:`. -/
theorem claim_C4_witness :
    "Invalid array header format".toList = "Invalid array header format".toList ∧
    ∃ l ∈ toonLines "[3]{}:".toList, headerDispatch (trim l) = true ∧
      headerFullParse (trim l) = none :=
  claim_C4.2 "[3]{}:".toList "Invalid array header format".toList (by rfl)

/-! Claim C1. -/

/-- C1 counterexample: encoding the scalar Null and decoding the result
yields the empty Object, not Null, so the round trip fails already at the
first scalar. -/
theorem claim_C1_counterexample :
    toonToJson (jsonToToon .null) = .ok (.obj []) ∧ Value.obj [] ≠ Value.null := by
  constructor
  · rw [show jsonToToon Value.null = "null".toList by simp [jsonToToon]]
    rfl
  · simp

/-- C1 amended: for every scalar Value (Null, Bool, Number, or String
without comma, colon, or newline) decoding the encoding yields the empty
Object — the decoder has no top-level scalar form, so scalars never
round-trip. -/
theorem claim_C1 (v : Value) (h : scalarC1 v) :
    toonToJson (jsonToToon v) = .ok (.obj []) := by
  rcases h with rfl | ⟨b, rfl⟩ | ⟨n, rfl⟩ | ⟨s, rfl, hnd⟩
  · rw [show jsonToToon Value.null = "null".toList by simp [jsonToToon]]
    rfl
  · cases b
    · rw [show jsonToToon (Value.bool false) = "false".toList by
        simp [jsonToToon, jsBoolStr]]
      rfl
    · rw [show jsonToToon (Value.bool true) = "true".toList by
        simp [jsonToToon, jsBoolStr]]
      rfl
  · rw [show jsonToToon (Value.num n) = jsNumToString n by simp [jsonToToon]]
    apply toonToJson_no_colon
    cases n with
    | int z =>
      intro hc
      rcases intRepr_chars hc with h | h
      · exact absurd h (by decide)
      · exact absurd h (by decide)
    | posInf => decide
    | negInf => decide
    | dec m e =>
      intro hc
      rcases decRepr_chars hc with h | h | h
      · exact absurd h (by decide)
      · exact absurd h (by decide)
      · exact absurd h (by decide)
  · rw [show jsonToToon (Value.str s) = s by simp [jsonToToon]]
    exact toonToJson_no_colon (fun hc => (hnd ':' hc).2.1 rfl)

/-- Witness for C1 at the scalar Null. -/
theorem claim_C1_witness : toonToJson (jsonToToon .null) = .ok (.obj []) :=
  claim_C1 .null (Or.inl rfl)

/-! Claim C8. -/

/-- C8: the encoder is a total function on the Value domain: every Value,
at any nesting depth, has a defined output text and no error path (the
encoder returns `Str`, not a result type, and its recursion terminates). -/
theorem claim_C8 (v : Value) : ∃ s : Str, jsonToToon v = s := ⟨jsonToToon v, rfl⟩

/-! Claim C2. -/

/-- C2 counterexample: encoding `{addr:{city:"x"}}` yields the single
inline line `addr: city: x` (the nested encoding is one line without
brackets, so the encoder inlines it), not the claimed two-line indented
text. -/
theorem claim_C2_counterexample :
    jsonToToon (.obj [("addr".toList, .obj [("city".toList, .str "x".toList)])]) =
      "addr: city: x".toList ∧
    "addr: city: x".toList ≠ "addr:\n  city: x".toList := by
  constructor
  · simp [jsonToToon, memberLines, formatToonValue, joinSep, List.contains]
  · decide

/-- C2 amended: encoding `{addr:{city:"x"}}` produces the single line
`addr: city: x`, and decoding the two-line text `addr:\n  city: x` yields
the Object `{addr: "city: x"}` with a string member: the decoder treats
the indented line as the scalar payload of the bare key, because its
nested-indentation branch tests the trimmed lookahead line and is
therefore unreachable. -/
theorem claim_C2 :
    jsonToToon (.obj [("addr".toList, .obj [("city".toList, .str "x".toList)])]) =
      "addr: city: x".toList ∧
    toonToJson "addr:\n  city: x".toList =
      .ok (.obj [("addr".toList, .str "city: x".toList)]) := by
  constructor
  · simp [jsonToToon, memberLines, formatToonValue, joinSep, List.contains]
  · rfl

/-! Claim C6. -/

/-- C6 counterexample: the text `Infinity` passes the `isNaN` guard, so
scalar parsing returns the Number Infinity, not the literal String that
the claim requires for non-finite numeric spellings. -/
theorem claim_C6_counterexample :
    parseToonValue "Infinity".toList = .num .posInf ∧
    Value.num .posInf ≠ .str "Infinity".toList := by
  constructor
  · rfl
  · simp

/-- C6 amended: scalar parsing maps the exact text `null` to Null,
`true`/`false` to the Bools, and the empty string to the empty String;
any other text that does not trim to the empty string and whose
`Number()` coercion is not NaN — including fractional and exponent
literals such as `1.5` and the infinite spellings `Infinity` and
`-Infinity` — parses to that Number; and all remaining text parses to the
literal String, including whitespace-only text, whose `Number()` coercion
is `0` but which fails the trim guard of the code. -/
theorem claim_C6 :
    parseToonValue "null".toList = .null ∧
    parseToonValue "true".toList = .bool true ∧
    parseToonValue "false".toList = .bool false ∧
    parseToonValue [] = .str [] ∧
    parseToonValue "Infinity".toList = .num .posInf ∧
    parseToonValue "-Infinity".toList = .num .negInf ∧
    parseToonValue "1.5".toList = .num (.dec 15 1) ∧
    parseToonValue " ".toList = .str " ".toList ∧
    (∀ s n, s ≠ "null".toList → s ≠ "true".toList → s ≠ "false".toList → s ≠ [] →
      jsStringToNumber s = some n → trim s ≠ [] → parseToonValue s = .num n) ∧
    (∀ s, s ≠ "null".toList → s ≠ "true".toList → s ≠ "false".toList → s ≠ [] →
      trim s = [] → parseToonValue s = .str s) ∧
    (∀ s, s ≠ "null".toList → s ≠ "true".toList → s ≠ "false".toList → s ≠ [] →
      jsStringToNumber s = none → parseToonValue s = .str s) := by
  refine ⟨rfl, rfl, rfl, rfl, rfl, rfl, rfl, rfl, ?_, ?_, ?_⟩
  · intro s n h1 h2 h3 h4 hnum htr
    unfold parseToonValue
    rw [if_neg h1, if_neg h2, if_neg h3, if_neg h4, hnum]
    show (if trim s ≠ [] then Value.num n else .str s) = _
    rw [if_pos htr]
  · intro s h1 h2 h3 h4 htr
    have hnum : jsStringToNumber s = some (.int 0) := by
      unfold jsStringToNumber
      simp [htr]
    unfold parseToonValue
    rw [if_neg h1, if_neg h2, if_neg h3, if_neg h4, hnum]
    show (if trim s ≠ [] then Value.num (.int 0) else .str s) = _
    rw [if_neg (by rw [htr]; simp)]
  · intro s h1 h2 h3 h4 hnum
    exact parseToonValue_str h4 h1 h2 h3 hnum

/-- Witness for C6: the numeric, whitespace-guard and string branches
applied at concrete inputs. -/
theorem claim_C6_witness :
    parseToonValue "12".toList = .num (.int 12) ∧
    parseToonValue "  ".toList = .str "  ".toList ∧
    parseToonValue "ab".toList = .str "ab".toList := by
  refine ⟨?_, ?_, ?_⟩
  · exact claim_C6.2.2.2.2.2.2.2.2.1 "12".toList (.int 12) (by decide) (by decide)
      (by decide) (by decide) (by rfl) (by decide)
  · exact claim_C6.2.2.2.2.2.2.2.2.2.1 "  ".toList (by decide) (by decide)
      (by decide) (by decide) (by decide)
  · exact claim_C6.2.2.2.2.2.2.2.2.2.2 "ab".toList (by decide) (by decide)
      (by decide) (by decide) (by rfl)

/-! Claim C10. -/

/-- C10 counterexample: the line `x` has no colon and does not end in a
colon, yet removing it changes the decoded Object, because it is consumed
as the scalar payload of the preceding bare key line `k:`. -/
theorem claim_C10_counterexample :
    strEndsWith [':'] (trim "x".toList) = false ∧
    firstIdx ':' (trim "x".toList) = none ∧
    toonToJson "k:\nx".toList = .ok (.obj [("k".toList, .str "x".toList)]) ∧
    toonToJson "k:".toList = .ok (.obj [("k".toList, .null)]) := by
  exact ⟨by decide, by decide, by rfl, by rfl⟩

/-- C10 amended: a line that does not end with a colon and whose first
colon is absent or at position zero is silently skipped when the object
parser dispatches on it at the top of its loop (it can still be consumed
earlier as the payload of a preceding bare-key line): the parse of the
line sequence equals the parse with that line removed, and no error is
raised. -/
theorem claim_C10 (l : Str) (rest : List Str)
    (hend : strEndsWith [':'] (trim l) = false)
    (hidx : firstIdx ':' (trim l) = none ∨ firstIdx ':' (trim l) = some 0) :
    parseToonObject (l :: rest) = parseToonObject rest := by
  unfold parseToonObject
  show parseToonObjectGo (rest.length + 1) [] (l :: rest) = _
  exact go_step_skip hend hidx

/-- Witness for C10: a colon-free line ahead of a normal key line is
skipped. -/
theorem claim_C10_witness :
    parseToonObject ["xyz".toList, "a: 1".toList] = parseToonObject ["a: 1".toList] :=
  claim_C10 "xyz".toList ["a: 1".toList] (by decide) (Or.inl (by decide))

/-! Tabular rows: the fold that builds a row object. -/

theorem objInsert_fresh {res : Obj} {k : Str} {v : Value}
    (h : ∀ p ∈ res, p.1 ≠ k) : objInsert res k v = res ++ [(k, v)] := by
  unfold objInsert
  rw [if_neg (by
    simp only [List.any_eq_true, decide_eq_true_eq, not_exists]
    intro p
    simp only [not_and]
    exact h p)]

theorem getD_mem : ∀ {l : List Str} {j : Nat}, j < l.length → ∀ d, l.getD j d ∈ l := by
  intro l
  induction l with
  | nil => intro j h d; simp at h
  | cons x xs ih =>
    intro j h d
    cases j with
    | zero => simp
    | succ j =>
      simp only [List.getD_cons_succ]
      exact List.mem_cons_of_mem _ (ih (by simp at h; omega) d)

theorem buildRowItem_fold (values : List Str) :
    ∀ (keys : List Str) (n : Nat) (acc : Obj),
    keys.Nodup → (∀ k ∈ keys, ∀ p ∈ acc, p.1 ≠ k) →
    (keys.enumFrom n).foldl
      (fun item p => objInsert item p.2 (parseToonValue (values.getD p.1 []))) acc =
    acc ++ (keys.enumFrom n).map (fun p => (p.2, parseToonValue (values.getD p.1 []))) := by
  intro keys
  induction keys with
  | nil => intro n acc _ _; simp
  | cons k ks ih =>
    intro n acc hnd hfresh
    rw [List.enumFrom_cons]
    simp only [List.foldl_cons, List.map_cons]
    rw [objInsert_fresh (hfresh k (List.mem_cons_self _ _))]
    rw [ih (n + 1) (acc ++ [(k, parseToonValue (values.getD n []))])
      (List.nodup_cons.mp hnd).2
      (by
        intro k2 hk2 p hp
        rcases List.mem_append.mp hp with hp1 | hp2
        · exact hfresh k2 (List.mem_cons_of_mem _ hk2) p hp1
        · rcases List.mem_singleton.mp hp2 with rfl
          intro he
          exact (List.nodup_cons.mp hnd).1 ((show k = k2 from he) ▸ hk2))]
    simp

theorem lookup_map_enumFrom (g : Nat → Value) :
    ∀ (keys : List Str) (n j : Nat), keys.Nodup → j < keys.length →
    List.lookup (keys.getD j []) ((keys.enumFrom n).map (fun p => (p.2, g p.1))) =
      some (g (n + j)) := by
  intro keys
  induction keys with
  | nil => intro n j _ hj; simp at hj
  | cons k ks ih =>
    intro n j hnd hj
    rw [List.enumFrom_cons]
    simp only [List.map_cons]
    cases j with
    | zero =>
      simp [List.lookup]
    | succ j =>
      have hne : k ≠ ks.getD j [] := by
        intro he
        exact (List.nodup_cons.mp hnd).1
          (he ▸ getD_mem (by simp only [List.length_cons] at hj; omega) [])
      simp only [List.getD_cons_succ]
      simp only [List.lookup]
      rw [show (ks.getD j [] == k) = false from beq_eq_false_iff_ne.mpr (Ne.symm hne)]
      dsimp only
      rw [ih (n + 1) j (List.nodup_cons.mp hnd).2
        (by simp only [List.length_cons] at hj; omega)]
      have harith : n + 1 + j = n + (j + 1) := by omega
      rw [harith]

theorem lookup_buildRowItem {keys values : List Str} {j : Nat}
    (hnd : keys.Nodup) (hj : j < keys.length) :
    List.lookup (keys.getD j []) (buildRowItem keys values) =
      some (parseToonValue (values.getD j [])) := by
  unfold buildRowItem
  rw [show keys.enum = keys.enumFrom 0 from rfl]
  rw [buildRowItem_fold values keys 0 [] hnd (by simp)]
  simp only [List.nil_append]
  have := lookup_map_enumFrom (fun i => parseToonValue (values.getD i [])) keys 0 j hnd hj
  simpa using this

theorem trim_mkTabularHeader (ds c : Str) :
    trim (mkTabularHeader ds c) = mkTabularHeader ds c := by
  have hshape : mkTabularHeader ds c =
      ('[' :: (ds ++ (']' :: ('{' :: (c ++ ['}']))))) ++ [':'] := by
    simp [mkTabularHeader]
  unfold trim
  rw [show trimLeft (mkTabularHeader ds c) = mkTabularHeader ds c from
    trimLeft_cons_not_ws (by decide)]
  apply trimRight_eq_self (c := ':')
  · rw [hshape]
    exact List.getLast?_concat _
  · decide

theorem length_mkTabularHeader (ds c : Str) :
    (mkTabularHeader ds c).length = ds.length + c.length + 5 := by
  simp only [mkTabularHeader, List.length_cons, List.length_append, List.length_nil]
  omega

/-! Claim C5. -/

/-- C5: decoding a text whose non-blank lines are a well-formed tabular
header `[ds]{c}:` followed by `r` row lines returns, without error, an
array of exactly `min(parseInt(ds), r)` row Objects, each mapping the
j-th comma-split trimmed column key to the scalar parse of the j-th
comma-split trimmed cell of its row, with missing trailing cells
defaulting to the empty string (the `getD` default inside
`buildRowItem`). -/
theorem claim_C5 (t : Str) (ds c : Str) (rows : List Str)
    (hlines : toonLines t = mkTabularHeader ds c :: rows)
    (hds : ds ≠ []) (hdig : ∀ x ∈ ds, x.isDigit = true) (hc : c ≠ []) :
    toonToJson t = .ok (.arr ((rows.take (digitsVal ds)).map
      (fun row => .obj (buildRowItem ((splitOnChar ',' c).map trim)
        ((splitOnChar ',' row).map trim))))) ∧
    (rows.take (digitsVal ds)).length = min (digitsVal ds) rows.length ∧
    (((splitOnChar ',' c).map trim).Nodup →
      ∀ row ∈ rows.take (digitsVal ds), ∀ j < ((splitOnChar ',' c).map trim).length,
      List.lookup (((splitOnChar ',' c).map trim).getD j [])
          (buildRowItem ((splitOnChar ',' c).map trim) ((splitOnChar ',' row).map trim)) =
        some (parseToonValue (((splitOnChar ',' row).map trim).getD j []))) := by
  have hhd := trim_mkTabularHeader ds c
  have hlen1 : 1 ≤ ds.length := by
    cases ds with
    | nil => exact absurd rfl hds
    | cons a b => simp
  have hlen2 : 1 ≤ c.length := by
    cases c with
    | nil => exact absurd rfl hc
    | cons a b => simp
  refine ⟨?_, by simp [List.length_take], ?_⟩
  · unfold toonToJson
    rw [hlines]
    dsimp only
    rw [hhd]
    rw [if_neg (by
      intro he
      have h3 := congrArg List.length he
      rw [length_mkTabularHeader] at h3
      have h4 : ("[]:".toList).length = 3 := rfl
      rw [h4] at h3
      omega)]
    rw [if_neg (by
      intro he
      have h3 := congrArg List.length he
      rw [length_mkTabularHeader] at h3
      have h4 : ("{}:".toList).length = 3 := rfl
      rw [h4] at h3
      omega)]
    rw [if_pos (headerDispatch_mkTabularHeader hds hdig)]
    unfold parseToonArray
    dsimp only
    rw [hhd, headerFullParse_mkTabularHeader hds hdig hc]
    rfl
  · intro hnd row _ j hj
    exact lookup_buildRowItem hnd hj

/-- Witness for C5: the header-arity example from the spec, decoding
`[3]{a,b}:` with three rows into three Number-valued objects. -/
theorem claim_C5_witness :
    toonToJson "[3]{a,b}:\n1,2\n3,4\n5,6".toList =
      .ok (.arr [.obj [("a".toList, .num (.int 1)), ("b".toList, .num (.int 2))],
                 .obj [("a".toList, .num (.int 3)), ("b".toList, .num (.int 4))],
                 .obj [("a".toList, .num (.int 5)), ("b".toList, .num (.int 6))]]) := by
  have h := claim_C5 "[3]{a,b}:\n1,2\n3,4\n5,6".toList "3".toList "a,b".toList
    ["1,2".toList, "3,4".toList, "5,6".toList] (by rfl) (by decide) (by decide) (by decide)
  rw [h.1]
  rfl

/-! Flat object members: line shape and parser behaviour. -/

theorem natToDigits_one : natToDigits 1 = ['1'] := by
  rw [natToDigits_small (by omega)]
  decide

theorem natToDigits_two : natToDigits 2 = ['2'] := by
  rw [natToDigits_small (by omega)]
  decide

theorem intRepr_one : intRepr 1 = ['1'] := by
  unfold intRepr
  rw [if_neg (by omega)]
  show natToDigits 1 = _
  exact natToDigits_one

theorem intRepr_two : intRepr 2 = ['2'] := by
  unfold intRepr
  rw [if_neg (by omega)]
  show natToDigits 2 = _
  exact natToDigits_two

theorem formatToonValue_flat {v : Value} (h : flatScalar v) :
    formatToonValue v ≠ [] ∧ trim (formatToonValue v) = formatToonValue v ∧
      ∀ c ∈ formatToonValue v, c ≠ ':' ∧ c ≠ '\n' := by
  rcases h with rfl | ⟨b, rfl⟩ | ⟨n, rfl⟩ | ⟨s, rfl, hs⟩
  · exact ⟨by decide, by decide, by decide⟩
  · cases b <;> exact ⟨by decide, by decide, by decide⟩
  · cases n with
    | int z =>
      show intRepr z ≠ [] ∧ trim (intRepr z) = intRepr z ∧ _
      refine ⟨intRepr_ne_nil z, ?_, ?_⟩
      · apply trim_eq_self_of_all
        intro c hc
        rcases intRepr_chars hc with rfl | hd
        · decide
        · exact isDigit_not_ws hd
      · intro c hc
        rcases intRepr_chars hc with rfl | hd
        · exact ⟨by decide, by decide⟩
        · exact ⟨ne_of_isDigit hd (by decide), ne_of_isDigit hd (by decide)⟩
    | posInf => exact ⟨by decide, by decide, by decide⟩
    | negInf => exact ⟨by decide, by decide, by decide⟩
    | dec m e =>
      show decRepr m e ≠ [] ∧ trim (decRepr m e) = decRepr m e ∧ _
      refine ⟨decRepr_ne_nil m e, ?_, ?_⟩
      · apply trim_eq_self_of_all
        intro c hc
        rcases decRepr_chars hc with rfl | rfl | hd
        · decide
        · decide
        · exact isDigit_not_ws hd
      · intro c hc
        rcases decRepr_chars hc with rfl | rfl | hd
        · exact ⟨by decide, by decide⟩
        · exact ⟨by decide, by decide⟩
        · exact ⟨ne_of_isDigit hd (by decide), ne_of_isDigit hd (by decide)⟩
  · exact ⟨hs.1, hs.2.1, hs.2.2⟩

theorem drop_append_cons_succ : ∀ (k : Str) (x : Char) (xs : Str),
    (k ++ x :: xs).drop (k.length + 1) = xs := by
  intro k
  induction k with
  | nil => intro x xs; rfl
  | cons c cs ih => intro x xs; exact ih x xs

theorem headerDispatch_last {s : Str} (h : headerDispatch s = true) :
    s.getLast? = some ':' := by
  unfold headerDispatch at h
  simp only [Bool.and_eq_true, decide_eq_true_eq] at h
  obtain ⟨⟨hstart, hds⟩, htail⟩ := h
  obtain ⟨t, rfl⟩ := strStartsWith_iff.mp hstart
  simp only [List.singleton_append, List.tail_cons] at htail hds
  rcases hd : t.dropWhile Char.isDigit with _ | ⟨b, r2⟩
  · rw [hd] at htail; simp [headerTailCheck] at htail
  · rcases r2 with _ | ⟨d, r3⟩
    · rw [hd] at htail; simp [headerTailCheck] at htail
    · rw [hd] at htail
      simp only [headerTailCheck, Bool.and_eq_true, decide_eq_true_eq] at htail
      obtain ⟨⟨hb, hdd⟩, hend⟩ := htail
      obtain ⟨u, hu⟩ := strEndsWith_iff.mp hend
      have h3 : r3.getLast? = some ':' := by
        rw [hu, show u ++ ['}', ':'] = (u ++ ['}']) ++ [':'] by simp]
        exact List.getLast?_concat _
      have h2 : (t.dropWhile Char.isDigit).getLast? = some ':' := by
        rw [hd, show (b :: d :: r3 : Str) = [b, d] ++ r3 by rfl,
          List.getLast?_append, h3]
        rfl
      have h1 : t.getLast? = some ':' := by
        rw [← List.takeWhile_append_dropWhile (p := Char.isDigit) (l := t),
          List.getLast?_append, h2]
        rfl
      rw [List.getLast?_append, h1]
      rfl

theorem memberLine_facts {k fv : Str} (hk : looseToken k)
    (hfv : fv ≠ [] ∧ trim fv = fv ∧ ∀ c ∈ fv, c ≠ ':' ∧ c ≠ '\n') :
    trim (k ++ ':' :: ' ' :: fv) = k ++ ':' :: ' ' :: fv ∧
    ('\n' ∉ (k ++ ':' :: ' ' :: fv)) ∧
    strEndsWith [':'] (k ++ ':' :: ' ' :: fv) = false ∧
    firstIdx ':' (k ++ ':' :: ' ' :: fv) = some k.length ∧
    headerDispatch (k ++ ':' :: ' ' :: fv) = false ∧
    (k ++ ':' :: ' ' :: fv) ≠ "[]:".toList ∧
    (k ++ ':' :: ' ' :: fv) ≠ "{}:".toList := by
  obtain ⟨hkne, hkts, hkchars⟩ := hk
  obtain ⟨hfne, hfts, hfchars⟩ := hfv
  obtain ⟨c0, k1, rfl, hc0⟩ := piece_head_not_ws hkts hkne
  obtain ⟨d, hdl, hdw⟩ := piece_getLast_not_ws hfts hfne
  have hdmem : d ∈ fv := mem_of_getLast? hdl
  have hlastline : ((c0 :: k1) ++ ':' :: ' ' :: fv).getLast? = some d := by
    rw [show ((c0 :: k1) ++ ':' :: ' ' :: fv : Str) =
      ((c0 :: k1) ++ [':', ' ']) ++ fv by simp, List.getLast?_append, hdl]
    rfl
  have hlen : ((c0 :: k1) ++ ':' :: ' ' :: fv).length =
      k1.length + fv.length + 3 := by
    simp
    omega
  have hfvlen : 1 ≤ fv.length := by
    cases fv with
    | nil => exact absurd rfl hfne
    | cons a b => simp
  refine ⟨?_, ?_, ?_, ?_, ?_, ?_, ?_⟩
  · have htr : trimRight (':' :: ' ' :: fv) = ':' :: ' ' :: fv := by
      apply trimRight_eq_self (c := d) _ hdw
      rw [show (':' :: ' ' :: fv : Str) = [':', ' '] ++ fv by rfl,
        List.getLast?_append, hdl]
      rfl
    rw [trim_append_of_head hc0 (by rw [htr]; simp), htr]
  · intro hmem
    rcases List.mem_append.mp hmem with h1 | h2
    · exact (hkchars '\n' h1).2 rfl
    · rcases List.mem_cons.mp h2 with h3 | h3
      · exact absurd h3.symm (by decide)
      · rcases List.mem_cons.mp h3 with h4 | h4
        · exact absurd h4.symm (by decide)
        · exact (hfchars '\n' h4).2 rfl
  · by_contra hcon
    simp only [Bool.not_eq_false] at hcon
    have := strEndsWith_single_iff.mp hcon
    rw [hlastline] at this
    injection this with h5
    exact (hfchars d hdmem).1 h5
  · exact firstIdx_append_cons (fun hmem => (hkchars ':' hmem).1 rfl)
  · by_contra hcon
    simp only [Bool.not_eq_false] at hcon
    have := headerDispatch_last hcon
    rw [hlastline] at this
    injection this with h5
    exact (hfchars d hdmem).1 h5
  · intro he
    have := congrArg List.length he
    rw [hlen] at this
    have h4 : ("[]:".toList).length = 3 := rfl
    rw [h4] at this
    omega
  · intro he
    have := congrArg List.length he
    rw [hlen] at this
    have h4 : ("{}:".toList).length = 3 := rfl
    rw [h4] at this
    omega

theorem memberLines_flat {ms : Obj} (h : ∀ p ∈ ms, flatScalar p.2) :
    memberLines ms = ms.map (fun p => p.1 ++ ':' :: ' ' :: formatToonValue p.2) := by
  induction ms with
  | nil => rfl
  | cons m rest ih =>
    obtain ⟨k, v⟩ := m
    have hv := h (k, v) (List.mem_cons_self _ _)
    have ihr := ih (fun p hp => h p (List.mem_cons_of_mem _ hp))
    rcases hv with rfl | ⟨b, rfl⟩ | ⟨n, rfl⟩ | ⟨s, rfl, _⟩
    · conv_lhs => unfold memberLines
      dsimp only
      rw [ihr]
      simp
    · conv_lhs => unfold memberLines
      dsimp only
      rw [ihr]
      simp
    · conv_lhs => unfold memberLines
      dsimp only
      rw [ihr]
      simp
    · conv_lhs => unfold memberLines
      dsimp only
      rw [ihr]
      simp

theorem trim_space_cons (fv : Str) : trim (' ' :: fv) = trim fv := by
  unfold trim trimLeft
  rw [List.dropWhile_cons]
  simp [isWS]

theorem go_member_lines :
    ∀ (ms : Obj) (fuel : Nat) (acc : Obj),
    (∀ p ∈ ms, looseToken p.1) → (∀ p ∈ ms, flatScalar p.2) →
    (ms.map Prod.fst).Nodup →
    (∀ p ∈ ms, ∀ q ∈ acc, q.1 ≠ p.1) →
    ms.length ≤ fuel →
    parseToonObjectGo fuel acc
      (ms.map (fun p => p.1 ++ ':' :: ' ' :: formatToonValue p.2)) =
      .ok (acc ++ ms.map (fun p => (p.1, parseToonValue (formatToonValue p.2)))) := by
  intro ms
  induction ms with
  | nil =>
    intro fuel acc _ _ _ _ _
    cases fuel <;> simp [parseToonObjectGo]
  | cons m rest ih =>
    intro fuel acc hkeys hvals hnd hfresh hlen
    obtain ⟨k, v⟩ := m
    obtain ⟨f, rfl⟩ : ∃ f, fuel = f + 1 :=
      ⟨fuel - 1, by simp only [List.length_cons] at hlen; omega⟩
    have hk := hkeys (k, v) (List.mem_cons_self _ _)
    have hfv := formatToonValue_flat (hvals (k, v) (List.mem_cons_self _ _))
    obtain ⟨hts, hnl, hend, hidx, hdp, hne1, hne2⟩ := memberLine_facts hk hfv
    simp only [List.map_cons]
    obtain ⟨j, hj⟩ : ∃ j, k.length = j + 1 := by
      cases k with
      | nil => exact absurd rfl hk.1
      | cons a b => exact ⟨b.length, by simp⟩
    have hidx2 : firstIdx ':' (trim (k ++ ':' :: ' ' :: formatToonValue v)) =
        some (j + 1) := by
      rw [hts, ← hj]
      exact hidx
    have hnb : trim (k ++ ':' :: ' ' :: formatToonValue v) ≠ [] := by
      rw [hts]
      simp
    have hendt : strEndsWith [':'] (trim (k ++ ':' :: ' ' :: formatToonValue v)) =
        false := by
      rw [hts]
      exact hend
    rw [go_step_kv hnb hendt hidx2]
    have htake : (k ++ ':' :: ' ' :: formatToonValue v).take (j + 1) = k := by
      rw [← hj]
      exact List.take_left k _
    have hdrop : (k ++ ':' :: ' ' :: formatToonValue v).drop (j + 2) =
        ' ' :: formatToonValue v := by
      have h2 : j + 2 = k.length + 1 := by omega
      rw [h2]
      exact drop_append_cons_succ k ':' (' ' :: formatToonValue v)
    rw [hts, htake, hdrop, hk.2.1, trim_space_cons, hfv.2.1]
    rw [objInsert_fresh (fun q hq => hfresh (k, v) (List.mem_cons_self _ _) q hq)]
    rw [ih f (acc ++ [(k, parseToonValue (formatToonValue v))])
      (fun p hp => hkeys p (List.mem_cons_of_mem _ hp))
      (fun p hp => hvals p (List.mem_cons_of_mem _ hp))
      (by simp only [List.map_cons] at hnd; exact (List.nodup_cons.mp hnd).2)
      (by
        intro p hp q hq
        rcases List.mem_append.mp hq with h1 | h2
        · exact hfresh p (List.mem_cons_of_mem _ hp) q h1
        · rcases List.mem_singleton.mp h2 with rfl
          show k ≠ p.1
          intro he
          simp only [List.map_cons] at hnd
          exact (List.nodup_cons.mp hnd).1 (he ▸ List.mem_map_of_mem Prod.fst hp))
      (by simp only [List.length_cons] at hlen; omega)]
    simp

/-! Claim C7. -/

/-- C7 counterexample: the Object `{k:{x:1,y:2}}` has nested-Object
members only, yet decoding its encoding yields keys `k` then `y`: the
unreachable nested-indentation branch makes the parser consume the line
`  x: 1` as the scalar payload of `k:` and then read `  y: 2` as a fresh
top-level key line, so key order (and the key set) is not preserved. -/
theorem claim_C7_counterexample :
    toonToJson (jsonToToon (.obj [("k".toList,
        .obj [("x".toList, .num (.int 1)), ("y".toList, .num (.int 2))])])) =
      .ok (.obj [("k".toList, .str "x: 1".toList), ("y".toList, .num (.int 2))]) ∧
    ["k".toList, "y".toList] ≠ ["k".toList] := by
  constructor
  · rw [show jsonToToon (.obj [("k".toList,
        .obj [("x".toList, .num (.int 1)), ("y".toList, .num (.int 2))])]) =
      "k:\n  x: 1\n  y: 2".toList by
        simp [jsonToToon, memberLines, formatToonValue, jsNumToString,
          intRepr_one, intRepr_two, joinSep, splitOnChar, List.contains]]
    rfl
  · decide

/-- C7 amended: for every Object whose keys are distinct, non-empty,
whitespace-trimmed and free of colon and newline, and whose members are
all scalars (Null, Bool, Number, or a non-empty whitespace-trimmed String
free of colon and newline), the decoded Object carries exactly the
original keys in insertion order; in particular `{b:1, a:2}` decodes with
key order `b` then `a`.  Nested-Object members are excluded because the
decoder's unreachable indentation branch breaks key order for multi-line
nested blocks. -/
theorem claim_C7 (ms : Obj) (hkeys : ∀ p ∈ ms, looseToken p.1)
    (hnd : (ms.map Prod.fst).Nodup) (hvals : ∀ p ∈ ms, flatScalar p.2) :
    ∃ e : Obj, toonToJson (jsonToToon (.obj ms)) = .ok (.obj e) ∧
      e.map Prod.fst = ms.map Prod.fst := by
  cases ms with
  | nil =>
    refine ⟨[], ?_, rfl⟩
    rw [show jsonToToon (Value.obj []) = "{}:".toList by simp [jsonToToon]]
    rfl
  | cons m rest =>
    refine ⟨(m :: rest).map (fun p => (p.1, parseToonValue (formatToonValue p.2))),
      ?_, by simp⟩
    have henc : jsonToToon (.obj (m :: rest)) =
        joinSep '\n' ((m :: rest).map
          (fun p => p.1 ++ ':' :: ' ' :: formatToonValue p.2)) := by
      rw [show jsonToToon (.obj (m :: rest)) = joinSep '\n' (memberLines (m :: rest)) by
        simp [jsonToToon]]
      rw [memberLines_flat hvals]
    have hlf : ∀ p ∈ m :: rest,
        trim (p.1 ++ ':' :: ' ' :: formatToonValue p.2) =
          p.1 ++ ':' :: ' ' :: formatToonValue p.2 ∧
        ('\n' ∉ (p.1 ++ ':' :: ' ' :: formatToonValue p.2)) ∧
        strEndsWith [':'] (p.1 ++ ':' :: ' ' :: formatToonValue p.2) = false ∧
        firstIdx ':' (p.1 ++ ':' :: ' ' :: formatToonValue p.2) = some p.1.length ∧
        headerDispatch (p.1 ++ ':' :: ' ' :: formatToonValue p.2) = false ∧
        (p.1 ++ ':' :: ' ' :: formatToonValue p.2) ≠ "[]:".toList ∧
        (p.1 ++ ':' :: ' ' :: formatToonValue p.2) ≠ "{}:".toList :=
      fun p hp => memberLine_facts (hkeys p hp) (formatToonValue_flat (hvals p hp))
    have hlines : toonLines (joinSep '\n' ((m :: rest).map
        (fun p => p.1 ++ ':' :: ' ' :: formatToonValue p.2))) =
        (m :: rest).map (fun p => p.1 ++ ':' :: ' ' :: formatToonValue p.2) := by
      apply toonLines_joinSep
      · simp
      · intro l hl
        obtain ⟨p, hp, rfl⟩ := List.mem_map.mp hl
        exact (hlf p hp).2.1
      · intro l hl
        obtain ⟨p, hp, rfl⟩ := List.mem_map.mp hl
        rw [(hlf p hp).1]
        simp
      · intro l hl
        obtain ⟨p, hp, rfl⟩ := List.mem_map.mp hl
        exact (hlf p hp).1
    rw [henc]
    unfold toonToJson
    rw [hlines]
    simp only [List.map_cons]
    obtain ⟨hts0, hnl0, hend0, hidx0, hdp0, hne10, hne20⟩ :=
      hlf m (List.mem_cons_self _ _)
    rw [hts0, if_neg hne10, if_neg hne20, if_neg (by simp [hdp0])]
    unfold parseToonObject
    have hlen : ((m.1 ++ ':' :: ' ' :: formatToonValue m.2) ::
        rest.map (fun p => p.1 ++ ':' :: ' ' :: formatToonValue p.2)).length =
        (m :: rest).length := by
      simp
    rw [hlen]
    have := go_member_lines (m :: rest) (m :: rest).length [] hkeys hvals hnd
      (by simp) (le_refl _)
    simp only [List.map_cons] at this
    rw [this]
    simp [Except.map]

/-- Witness for C7: the spec example `{b:1, a:2}` decodes with keys in
the order `b`, `a`. -/
theorem claim_C7_witness :
    ∃ e : Obj, toonToJson (jsonToToon (.obj [("b".toList, .num (.int 1)),
        ("a".toList, .num (.int 2))])) = .ok (.obj e) ∧
      e.map Prod.fst = ["b".toList, "a".toList] := by
  have h := claim_C7 [("b".toList, .num (.int 1)), ("a".toList, .num (.int 2))]
    (by
      intro p hp
      rcases List.mem_cons.mp hp with rfl | hp2
      · exact ⟨by decide, by decide, by decide⟩
      · rcases List.mem_singleton.mp hp2 with rfl
        exact ⟨by decide, by decide, by decide⟩)
    (by decide)
    (by
      intro p hp
      rcases List.mem_cons.mp hp with rfl | hp2
      · exact Or.inr (Or.inr (Or.inl ⟨.int 1, rfl⟩))
      · rcases List.mem_singleton.mp hp2 with rfl
        exact Or.inr (Or.inr (Or.inl ⟨.int 2, rfl⟩)))
  exact h

/-! Lemmas for the tabular round trip (claim C3). -/

theorem joinSep_chars {sep : Char} {ps : List Str} {c : Char}
    (hc : c ∈ joinSep sep ps) : c = sep ∨ ∃ p ∈ ps, c ∈ p := by
  induction ps with
  | nil => simp [joinSep] at hc
  | cons p ps ih =>
    cases ps with
    | nil =>
      simp [joinSep] at hc
      exact Or.inr ⟨p, by simp, hc⟩
    | cons q qs =>
      rw [joinSep_cons (by simp)] at hc
      rcases List.mem_append.mp hc with h1 | h2
      · exact Or.inr ⟨p, by simp, h1⟩
      · rcases List.mem_cons.mp h2 with rfl | h3
        · exact Or.inl rfl
        · rcases ih h3 with h4 | ⟨r, hr, hcr⟩
          · exact Or.inl h4
          · exact Or.inr ⟨r, List.mem_cons_of_mem _ hr, hcr⟩

theorem joinSep_ne_nil {sep : Char} {ps : List Str} (hne : ps ≠ [])
    (hh : ∀ p ∈ ps, p ≠ []) : joinSep sep ps ≠ [] := by
  cases ps with
  | nil => exact absurd rfl hne
  | cons p rest =>
    obtain ⟨t, ht⟩ := joinSep_head_append sep p rest
    rw [ht]
    have hp := hh p (List.mem_cons_self _ _)
    cases p with
    | nil => exact absurd rfl hp
    | cons c cs => simp

theorem parse_format_clean {v : Value} (h : cleanScalar v) :
    parseToonValue (formatToonValue v) = v := by
  rcases h with rfl | ⟨b, rfl⟩ | ⟨n, rfl, hn⟩ | ⟨s, rfl, hs⟩
  · rfl
  · cases b <;> rfl
  · exact parseToonValue_num hn
  · exact parseToonValue_str hs.1.1 hs.2.1 hs.2.2.1 hs.2.2.2.1 hs.2.2.2.2

theorem formatToonValue_clean {v : Value} (h : cleanScalar v) :
    formatToonValue v ≠ [] ∧ trim (formatToonValue v) = formatToonValue v ∧
      ∀ c ∈ formatToonValue v, c ≠ ',' ∧ c ≠ '\n' := by
  rcases h with rfl | ⟨b, rfl⟩ | ⟨n, rfl, hn⟩ | ⟨s, rfl, hs⟩
  · exact ⟨by decide, by decide, by decide⟩
  · cases b <;> exact ⟨by decide, by decide, by decide⟩
  · rcases hn with ⟨z, rfl⟩ | rfl | rfl
    · show intRepr z ≠ [] ∧ trim (intRepr z) = intRepr z ∧ _
      refine ⟨intRepr_ne_nil z, ?_, ?_⟩
      · apply trim_eq_self_of_all
        intro c hc
        rcases intRepr_chars hc with rfl | hd
        · decide
        · exact isDigit_not_ws hd
      · intro c hc
        rcases intRepr_chars hc with rfl | hd
        · exact ⟨by decide, by decide⟩
        · exact ⟨ne_of_isDigit hd (by decide), ne_of_isDigit hd (by decide)⟩
    · exact ⟨by decide, by decide, by decide⟩
    · exact ⟨by decide, by decide, by decide⟩
  · refine ⟨hs.1.1, hs.1.2.1, ?_⟩
    intro c hc
    have h2 := hs.1.2.2 c hc
    exact ⟨h2.1, h2.2.2⟩

theorem sameStruct_of_mapfst {K : List Str} {e : Obj} (h : e.map Prod.fst = K) :
    sameStruct K (.obj e) = true := by
  simp only [sameStruct]
  simp only [Bool.and_eq_true, decide_eq_true_eq, List.all_eq_true, List.any_eq_true]
  constructor
  · rw [← h]
    simp
  · intro k hk
    rw [← h] at hk
    obtain ⟨p, hp, hpk⟩ := List.mem_map.mp hk
    exact ⟨p, hp, by simp [hpk]⟩

theorem jsGet_obj (e : Obj) (k : Str) :
    jsGet (.obj e) k =
      (match e.find? (fun p => p.1 = k) with
       | some p => p.2
       | none => .str "undefined".toList) := rfl

theorem map_jsGet (f : Value → Str) :
    ∀ (e : Obj), (e.map Prod.fst).Nodup →
    (e.map Prod.fst).map (fun k => f (jsGet (.obj e) k)) = e.map (fun p => f p.2) := by
  intro e
  induction e with
  | nil => intro _; rfl
  | cons m tl ih =>
    intro hnd
    obtain ⟨k0, v0⟩ := m
    simp only [List.map_cons] at hnd ⊢
    have hnd2 := List.nodup_cons.mp hnd
    have hhead : jsGet (.obj ((k0, v0) :: tl)) k0 = v0 := by
      rw [jsGet_obj, List.find?_cons_of_pos _ (by simp)]
    have htail : ∀ k ∈ tl.map Prod.fst,
        f (jsGet (.obj ((k0, v0) :: tl)) k) = f (jsGet (.obj tl) k) := by
      intro k hk
      have hne : k0 ≠ k := fun he => hnd2.1 (he ▸ hk)
      rw [jsGet_obj, jsGet_obj, List.find?_cons_of_neg _ (by simp [hne])]
    rw [hhead, List.map_congr_left htail, ih hnd2.2]

theorem buildRowItem_exact {e : Obj} (hnd : (e.map Prod.fst).Nodup)
    (hvals : ∀ p ∈ e, cleanScalar p.2) :
    buildRowItem (e.map Prod.fst) (e.map (fun p => formatToonValue p.2)) = e := by
  unfold buildRowItem
  rw [show (e.map Prod.fst).enum = (e.map Prod.fst).enumFrom 0 from rfl]
  rw [buildRowItem_fold (e.map (fun p => formatToonValue p.2)) (e.map Prod.fst) 0 [] hnd
    (fun k _ p hp => absurd hp (List.not_mem_nil p))]
  simp only [List.nil_append]
  apply List.ext_getElem
  · simp
  · intro i h1 h2
    rw [List.getElem_map, List.getElem_enumFrom]
    dsimp only
    have hi : i < e.length := h2
    have hgd : (e.map (fun p => formatToonValue p.2)).getD (0 + i) [] =
        formatToonValue (e[i].2) := by
      rw [Nat.zero_add, List.getD_eq_getElem _ _ (by simpa using hi), List.getElem_map]
    rw [hgd, List.getElem_map, parse_format_clean (hvals e[i] (List.getElem_mem hi))]

theorem map_trim_self {L : List Str} (h : ∀ k ∈ L, trim k = k) : L.map trim = L := by
  induction L with
  | nil => rfl
  | cons k ks ih =>
    rw [List.map_cons, h k (List.mem_cons_self _ _),
      ih (fun x hx => h x (List.mem_cons_of_mem _ hx))]

theorem mkTabularHeader_chars {ds c : Str} {x : Char} (hx : x ∈ mkTabularHeader ds c) :
    x = '[' ∨ x ∈ ds ∨ x = ']' ∨ x = '{' ∨ x ∈ c ∨ x = '}' ∨ x = ':' := by
  simp only [mkTabularHeader, List.mem_cons, List.mem_append] at hx
  tauto

/-! Claim C3. -/

/-- C3 amended: the tabular round trip holds for a non-empty array of
Objects that all carry the same non-empty duplicate-free key list in the
same order, with every key a non-empty trimmed token free of comma, colon
and newline, and every member value a scalar whose cell text parses back
to itself: Null, Bool, an integer or infinite Number, or a non-empty
trimmed String free of the delimiters that is not a keyword and is not
recognised by the numeric grammar of `Number()` (so strings such as
`null` or `1.5`, whose cells decode to Null or to the Number 1.5, are
excluded).  Such an array encodes to a tabular header plus one row per
element and decodes back to exactly the original array. -/
theorem claim_C3 (es : List Obj) (K : List Str)
    (hne : es ≠ [])
    (hkeys : ∀ e ∈ es, e.map Prod.fst = K)
    (hK : K ≠ []) (hKnd : K.Nodup)
    (hKcl : ∀ k ∈ K, cleanToken k)
    (hvals : ∀ e ∈ es, ∀ p ∈ e, cleanScalar p.2) :
    toonToJson (jsonToToon (.arr (es.map Value.obj))) = .ok (.arr (es.map Value.obj)) := by
  obtain ⟨e0, rest, rfl⟩ : ∃ e0 rest, es = e0 :: rest := by
    cases es with
    | nil => exact absurd rfl hne
    | cons a b => exact ⟨a, b, rfl⟩
  have hk0 : e0.map Prod.fst = K := hkeys e0 (List.mem_cons_self _ _)
  have htab : tabularOkList (Value.obj e0 :: rest.map Value.obj) = true := by
    simp only [tabularOkList]
    rw [hk0]
    simp only [Bool.and_eq_true, List.all_eq_true, decide_eq_true_eq]
    constructor
    · intro v hv
      rcases List.mem_cons.mp hv with rfl | hv2
      · exact sameStruct_of_mapfst hk0
      · obtain ⟨e, he, rfl⟩ := List.mem_map.mp hv2
        exact sameStruct_of_mapfst (hkeys e (List.mem_cons_of_mem _ he))
    · cases K with
      | nil => exact absurd rfl hK
      | cons a b => simp
  have hkf : keysOfFirst (Value.obj e0 :: rest.map Value.obj) = K := by
    simp only [keysOfFirst]
    exact hk0
  have hrowsOf : rowsOf (Value.obj e0 :: rest.map Value.obj) K =
      (e0 :: rest).map (fun e => joinSep ',' (e.map (fun p => formatToonValue p.2))) := by
    unfold rowsOf
    rw [show (Value.obj e0 :: rest.map Value.obj) = (e0 :: rest).map Value.obj by simp]
    rw [List.map_map]
    apply List.map_congr_left
    intro e he
    show joinSep ',' (K.map (fun k => formatToonValue (jsGet (.obj e) k))) = _
    rw [← hkeys e he,
      map_jsGet formatToonValue e (by rw [hkeys e he]; exact hKnd)]
  have henc : jsonToToon (.arr ((e0 :: rest).map Value.obj)) =
      joinSep '\n'
        (mkTabularHeader (natToDigits (rest.length + 1)) (joinSep ',' K) ::
          (e0 :: rest).map (fun e => joinSep ',' (e.map (fun p => formatToonValue p.2)))) := by
    simp only [List.map_cons]
    rw [show jsonToToon (.arr (Value.obj e0 :: rest.map Value.obj)) =
        joinSep '\n' (tabularHeader (Value.obj e0 :: rest.map Value.obj).length
            (keysOfFirst (Value.obj e0 :: rest.map Value.obj)) ::
          rowsOf (Value.obj e0 :: rest.map Value.obj)
            (keysOfFirst (Value.obj e0 :: rest.map Value.obj))) by
      simp [jsonToToon, htab]]
    rw [hkf]
    have hrw := hrowsOf
    simp only [List.map_cons] at hrw
    rw [hrw, show (Value.obj e0 :: List.map Value.obj rest).length = rest.length + 1 by simp]
    rfl
  have hcell : ∀ e ∈ e0 :: rest, ∀ s ∈ e.map (fun p => formatToonValue p.2),
      s ≠ [] ∧ trim s = s ∧ ∀ x ∈ s, x ≠ ',' ∧ x ≠ '\n' := by
    intro e he s hs
    obtain ⟨p, hp, rfl⟩ := List.mem_map.mp hs
    exact formatToonValue_clean (hvals e he p hp)
  have hcne : joinSep ',' K ≠ [] := joinSep_ne_nil hK (fun k hk => (hKcl k hk).1)
  have hene : ∀ e ∈ e0 :: rest, e ≠ [] := by
    intro e he h0
    apply hK
    rw [← hkeys e he, h0]
    rfl
  have hcellne : ∀ e ∈ e0 :: rest, e.map (fun p => formatToonValue p.2) ≠ [] := by
    intro e he
    simpa using hene e he
  have hrowfacts : ∀ r ∈ (e0 :: rest).map
      (fun e => joinSep ',' (e.map (fun p => formatToonValue p.2))),
      trim r = r ∧ r ≠ [] ∧ '\n' ∉ r := by
    intro r hr
    obtain ⟨e, he, rfl⟩ := List.mem_map.mp hr
    refine ⟨trim_joinSep (hcellne e he) (fun s hs => (hcell e he s hs).1)
        (fun s hs => (hcell e he s hs).2.1),
      joinSep_ne_nil (hcellne e he) (fun s hs => (hcell e he s hs).1), ?_⟩
    intro hmem
    rcases joinSep_chars hmem with h1 | ⟨s, hs, hcs⟩
    · exact absurd h1 (by decide)
    · exact ((hcell e he s hs).2.2 '\n' hcs).2 rfl
  have hds := natToDigits_ne_nil (rest.length + 1)
  have hdig := natToDigits_all_digit (rest.length + 1)
  have hhdrtrim := trim_mkTabularHeader (natToDigits (rest.length + 1)) (joinSep ',' K)
  have hhdrnl : '\n' ∉ mkTabularHeader (natToDigits (rest.length + 1)) (joinSep ',' K) := by
    intro hmem
    rcases mkTabularHeader_chars hmem with h | h | h | h | h | h | h
    · exact absurd h (by decide)
    · exact absurd (hdig '\n' h) (by decide)
    · exact absurd h (by decide)
    · exact absurd h (by decide)
    · rcases joinSep_chars h with h1 | ⟨k, hk, hck⟩
      · exact absurd h1 (by decide)
      · exact ((hKcl k hk).2.2 '\n' hck).2.2 rfl
    · exact absurd h (by decide)
    · exact absurd h (by decide)
  have hhdrne : mkTabularHeader (natToDigits (rest.length + 1)) (joinSep ',' K) ≠ [] := by
    simp [mkTabularHeader]
  have hlines : toonLines (joinSep '\n'
      (mkTabularHeader (natToDigits (rest.length + 1)) (joinSep ',' K) ::
        (e0 :: rest).map (fun e => joinSep ',' (e.map (fun p => formatToonValue p.2))))) =
      mkTabularHeader (natToDigits (rest.length + 1)) (joinSep ',' K) ::
        (e0 :: rest).map (fun e => joinSep ',' (e.map (fun p => formatToonValue p.2))) := by
    apply toonLines_joinSep
    · simp
    · intro l hl
      rcases List.mem_cons.mp hl with rfl | hl2
      · exact hhdrnl
      · exact (hrowfacts l hl2).2.2
    · intro l hl
      rcases List.mem_cons.mp hl with rfl | hl2
      · rw [hhdrtrim]
        exact hhdrne
      · rw [(hrowfacts l hl2).1]
        exact (hrowfacts l hl2).2.1
    · intro l hl
      rcases List.mem_cons.mp hl with rfl | hl2
      · exact hhdrtrim
      · exact (hrowfacts l hl2).1
  have hlen3 : ("[]:".toList).length = 3 := rfl
  have hlen3b : ("{}:".toList).length = 3 := rfl
  have hhne1 : mkTabularHeader (natToDigits (rest.length + 1)) (joinSep ',' K) ≠
      "[]:".toList := by
    intro h
    have := congrArg List.length h
    rw [length_mkTabularHeader, hlen3] at this
    omega
  have hhne2 : mkTabularHeader (natToDigits (rest.length + 1)) (joinSep ',' K) ≠
      "{}:".toList := by
    intro h
    have := congrArg List.length h
    rw [length_mkTabularHeader, hlen3b] at this
    omega
  have hdisp := headerDispatch_mkTabularHeader hds hdig
    (c := joinSep ',' K)
  have hsplit : (splitOnChar ',' (joinSep ',' K)).map trim = K := by
    rw [splitOnChar_joinSep hK (fun k hk hc => ((hKcl k hk).2.2 ',' hc).1 rfl)]
    exact map_trim_self (fun k hk => (hKcl k hk).2.1)
  have hpa : parseToonArray
      (mkTabularHeader (natToDigits (rest.length + 1)) (joinSep ',' K) ::
        (e0 :: rest).map (fun e => joinSep ',' (e.map (fun p => formatToonValue p.2)))) =
      .ok ((e0 :: rest).map Value.obj) := by
    unfold parseToonArray
    dsimp only
    rw [hhdrtrim, headerFullParse_mkTabularHeader hds hdig hcne]
    dsimp only
    rw [hsplit, digitsVal_natToDigits]
    rw [show rest.length + 1 =
        ((e0 :: rest).map (fun e => joinSep ','
          (e.map (fun p => formatToonValue p.2)))).length by simp,
      List.take_length]
    rw [List.map_map]
    congr 1
    apply List.map_congr_left
    intro e he
    have hesplit : (splitOnChar ','
        (joinSep ',' (e.map (fun p => formatToonValue p.2)))).map trim =
        e.map (fun p => formatToonValue p.2) := by
      rw [splitOnChar_joinSep (hcellne e he)
        (fun s hs hc => ((hcell e he s hs).2.2 ',' hc).1 rfl)]
      exact map_trim_self (fun s hs => (hcell e he s hs).2.1)
    show Value.obj (buildRowItem K _) = Value.obj e
    rw [hesplit, ← hkeys e he,
      buildRowItem_exact (by rw [hkeys e he]; exact hKnd) (hvals e he)]
  rw [henc]
  unfold toonToJson
  rw [hlines]
  dsimp only
  rw [hhdrtrim, if_neg hhne1, if_neg hhne2, if_pos hdisp, hpa]
  rfl

/-- Witness for C3: the two-element array `[{a:1},{a:2}]` of uniform
single-key objects round-trips through the tabular form. -/
theorem claim_C3_witness :
    toonToJson (jsonToToon (.arr ([[("a".toList, Value.num (.int 1))],
        [("a".toList, Value.num (.int 2))]].map Value.obj))) =
      .ok (.arr ([[("a".toList, Value.num (.int 1))],
        [("a".toList, Value.num (.int 2))]].map Value.obj)) := by
  have h := claim_C3
    [[("a".toList, Value.num (.int 1))], [("a".toList, Value.num (.int 2))]]
    ["a".toList]
    (by simp)
    (by
      intro e he
      rcases List.mem_cons.mp he with rfl | he2
      · rfl
      · rcases List.mem_singleton.mp he2 with rfl
        rfl)
    (by simp)
    (by decide)
    (by
      intro k hk
      rcases List.mem_singleton.mp hk with rfl
      exact ⟨by decide, by decide, by unfold noDelim; decide⟩)
    (by
      intro e he p hp
      rcases List.mem_cons.mp he with rfl | he2
      · rcases List.mem_singleton.mp hp with rfl
        exact Or.inr (Or.inr (Or.inl ⟨.int 1, rfl, Or.inl ⟨1, rfl⟩⟩))
      · rcases List.mem_singleton.mp he2 with rfl
        rcases List.mem_singleton.mp hp with rfl
        exact Or.inr (Or.inr (Or.inl ⟨.int 2, rfl, Or.inl ⟨2, rfl⟩⟩)))
  exact h

/-- C3 counterexample: the one-element array `[{a:"null"}]` fits the
original claim shape (uniform key set, scalar members, the String "null"
free of comma, colon and newline), yet decoding its encoding yields
`[{a:null}]`: the cell text "null" parses back as Null, not as the
original String. -/
theorem claim_C3_counterexample :
    tabularOkList [Value.obj [("a".toList, .str "null".toList)]] = true ∧
    noDelim "null".toList ∧
    toonToJson (jsonToToon (.arr [.obj [("a".toList, .str "null".toList)]])) =
      .ok (.arr [.obj [("a".toList, .null)]]) ∧
    Value.arr [.obj [("a".toList, .null)]] ≠
      .arr [.obj [("a".toList, .str "null".toList)]] := by
  refine ⟨rfl, by unfold noDelim; decide, ?_, by simp⟩
  rw [show jsonToToon (.arr [.obj [("a".toList, .str "null".toList)]]) =
      "[1]{a}:\nnull".toList by
    simp [jsonToToon, tabularOkList, sameStruct, keysOfFirst, rowsOf, jsGet,
      tabularHeader, mkTabularHeader, natToDigits_one, joinSep, formatToonValue,
      List.find?]]
  rfl

end Toon
